import Mathlib

/-!
Verification of the XML/CSV parser core (`src/main.rs`) against its
natural-language specification.

The embedding works over `List Char` strings.  The `Rc<RefCell<XMLNode>>`
graph of the source (nodes carrying a non-owning `parent` back-reference)
is modelled as an arena: a heap is a list of nodes and a node stores its
parent and children as indices into that heap, exactly the arena shape the
design notes of the spec prescribe for ports.
-/

set_option maxRecDepth 10000

namespace XMLCSV

/-- Rust `char::is_whitespace`: the Unicode `White_Space` code points. -/
def isWS (c : Char) : Bool :=
  c ∈ ['\t', '\n', '\x0b', '\x0c', '\r', ' ', '\u0085', '\u00a0',
       '\u1680', '\u2000', '\u2001', '\u2002', '\u2003', '\u2004', '\u2005',
       '\u2006', '\u2007', '\u2008', '\u2009', '\u200a', '\u2028', '\u2029',
       '\u202f', '\u205f', '\u3000']

/-- Rust `str::trim`: drop leading and trailing whitespace. -/
def trim (s : List Char) : List Char :=
  ((s.dropWhile isWS).reverse.dropWhile isWS).reverse

/-- Type `XMLTerm` of the source: a lexical/formatting unit. -/
inductive XMLTerm where
  | openingTag : List Char → XMLTerm
  | closingTag : List Char → XMLTerm
  | text : List Char → XMLTerm
  | none : XMLTerm
deriving Repr, DecidableEq

/-- Method `XMLTerm::get_string` restricted to reading: the payload, when any. -/
def XMLTerm.getString : XMLTerm → Option (List Char)
  | .openingTag s => some s
  | .closingTag s => some s
  | .text s => some s
  | .none => Option.none

/-- Method `XMLTerm::get_string` used for appending a character (lexer default arm). -/
def XMLTerm.pushChar : XMLTerm → Char → XMLTerm
  | .openingTag s, c => .openingTag (s ++ [c])
  | .closingTag s, c => .closingTag (s ++ [c])
  | .text s, c => .text (s ++ [c])
  | .none, _ => .none

/-- Function `push_term` (src/main.rs:77): trim the accumulator's content and emit it
only when non-empty; the accumulator resets to `None` (callers use the
returned emission list). -/
def pushTerm : XMLTerm → List XMLTerm
  | .openingTag s => if (trim s).length > 0 then [.openingTag (trim s)] else []
  | .closingTag s => if (trim s).length > 0 then [.closingTag (trim s)] else []
  | .text s => if (trim s).length > 0 then [.text (trim s)] else []
  | .none => []

/-- The lexer's mutable locals: `current_term`, `previous_char`,
`skip_until_next_line`. -/
structure LexState where
  current : XMLTerm
  previous : Char
  skip : Bool
deriving Repr, DecidableEq

/-- One iteration of the lexer's `match c` (src/main.rs:111-162), the
`previous_char = c` update included.  Returns the terms emitted by this
character and the next state, or the lexer's error message. -/
def procChar (c : Char) (st : LexState) : Except (List Char) (List XMLTerm × LexState) :=
  if c = '<' then
    let flushed : List XMLTerm × XMLTerm :=
      match st.current with
      | .text s => (pushTerm (.text s), .none)
      | cur => ([], cur)
    match flushed.2 with
    | .none => .ok (flushed.1, ⟨.openingTag [], c, false⟩)
    | _ => .error ("Unexpected '<'".data)
  else if c = '>' then
    match st.current with
    | .openingTag s => .ok (pushTerm (.openingTag s), ⟨.none, c, false⟩)
    | .closingTag s => .ok (pushTerm (.closingTag s), ⟨.none, c, false⟩)
    | _ => .error ("Unexpected '>'".data)
  else if c = '/' ∧ (match st.current with | .text _ => false | _ => true) = true then
    match st.current with
    | .openingTag s =>
        if st.previous = '<' then .ok ([], ⟨.closingTag s, c, false⟩)
        else .error ("Unexpected '/'".data)
    | _ => .error ("Unexpected '/'".data)
  else if c = '?' then
    .ok ([], ⟨st.current, c, true⟩)
  else
    let cur := match st.current with
      | .none => XMLTerm.text []
      | cur => cur
    .ok ([], ⟨cur.pushChar c, c, false⟩)

/-- One loop iteration of `lexer` (src/main.rs:102-163): the
skip-until-next-line prelude around `procChar`.  While skipping, characters
other than `'\n'` are consumed without touching the state (the Rust
`continue` also skips the `previous_char` update); the terminating `'\n'`
resets the accumulator and is then processed normally. -/
def lexStep (c : Char) (st : LexState) : Except (List Char) (List XMLTerm × LexState) :=
  if st.skip then
    if c = '\n' then procChar c ⟨.none, '\x00', false⟩
    else .ok ([], st)
  else procChar c st

/-- The lexer's character loop: fold `lexStep` over the input, concatenating
emissions. -/
def lexRun : List Char → LexState → Except (List Char) (List XMLTerm × LexState)
  | [], st => .ok ([], st)
  | c :: cs, st =>
    match lexStep c st with
    | .error e => .error e
    | .ok (e₁, st₁) =>
      match lexRun cs st₁ with
      | .error e => .error e
      | .ok (e₂, st₂) => .ok (e₁ ++ e₂, st₂)

/-- Function `lexer` (src/main.rs:95): run the loop from the initial state and return
the emitted terms.  A trailing unflushed accumulator is dropped, exactly as
in the source (the final `Ok(terms)` never flushes `current_term`). -/
def lexer (s : List Char) : Except (List Char) (List XMLTerm) :=
  match lexRun s ⟨.none, '\x00', false⟩ with
  | .error e => .error e
  | .ok (ts, _) => .ok ts

/-- Struct `XMLNode` of the source, as an arena node: `parent` and `children` are
indices into the heap. -/
structure XMLNode where
  name : List Char
  data : List Char
  parent : Option Nat
  children : List Nat
deriving Repr, DecidableEq

instance : Inhabited XMLNode := ⟨⟨[], [], Option.none, []⟩⟩

/-- The arena holding the `Rc<RefCell<XMLNode>>` graph. -/
abbrev Heap := List XMLNode

/-- Read the node at index `i` (a dangling index yields the default node;
parser invariants rule that out on the executions we reason about). -/
def nodeAt (h : Heap) (i : Nat) : XMLNode := h.getD i default

/-- Replace the children list of node `i`. -/
def setChildren (h : Heap) (i : Nat) (cs : List Nat) : Heap :=
  h.set i { nodeAt h i with children := cs }

/-- Append `s` to the data of node `i` (`data.push_str`, src/main.rs:201). -/
def appendData (h : Heap) (i : Nat) (s : List Char) : Heap :=
  h.set i { nodeAt h i with data := (nodeAt h i).data ++ s }

/-- Method `XMLNode::get_path` (src/main.rs:45): the names along the parent chain,
root first.  The Rust recursion terminates because the `Rc` graph is
acyclic; here a fuel argument bounds the chain and the heap invariants
proved below show `heap.length` fuel is always enough. -/
def getPathAux (h : Heap) : Nat → Nat → List (List Char)
  | 0, _ => []
  | fuel + 1, i =>
    let temp := match (nodeAt h i).parent with
      | some p => getPathAux h fuel p
      | Option.none => []
    temp ++ [(nodeAt h i).name]

def getPath (h : Heap) (i : Nat) : List (List Char) :=
  getPathAux h h.length i

/-- Result of the tree parser: a value, a returned `Err`, or a `panic!`
reached inside `Stack::top` (src/main.rs:21) on an empty stack. -/
inductive PResult (α : Type) where
  | ok : α → PResult α
  | error : List Char → PResult α
  | fatal : PResult α
deriving Repr, DecidableEq

/-- The loop of `parser` (src/main.rs:175-205) over the remaining terms.
The stack holds heap indices, head = `Stack::top`.  Every access through
`Stack::top` on an empty stack is the Rust panic, `PResult.fatal`. -/
def parserLoop : List XMLTerm → List Nat → Heap → PResult (Heap × List Nat)
  | [], stack, h => .ok (h, stack)
  | t :: rest, stack, h =>
    match t with
    | .openingTag s =>
      match stack with
      | [] => .fatal
      | top :: stack' =>
        let idx := h.length
        let h₁ := h ++ [⟨s, [], some top, []⟩]
        let h₂ := setChildren h₁ top ((nodeAt h₁ top).children ++ [idx])
        parserLoop rest (idx :: top :: stack') h₂
    | .closingTag s =>
      match stack with
      | [] => .fatal
      | top :: stack' =>
        if s = (nodeAt h top).name then parserLoop rest stack' h
        else .error ("Unexpected closing tag. Found: ".data ++ s
                      ++ ", Expected: ".data ++ (nodeAt h top).name)
    | .text s =>
      match stack with
      | [] => .fatal
      | top :: _ => parserLoop rest stack (appendData h top s)
    | .none => parserLoop rest stack h

/-- The heap seeded with the synthetic root node (src/main.rs:170). -/
def initHeap : Heap := [⟨"root".data, [], Option.none, []⟩]

/-- Function `parser` (src/main.rs:169): run the loop from the seeded stack; on
normal completion return the heap, whose index 0 is the returned root. -/
def parser (ts : List XMLTerm) : PResult Heap :=
  match parserLoop ts [0] initHeap with
  | .ok (h, _) => .ok h
  | .error e => .error e
  | .fatal => .fatal

/-- Predicate stating that `needle` occurs contiguously inside `haystack`. -/
def containsSub (needle haystack : List Char) : Prop :=
  ∃ pre post, haystack = pre ++ needle ++ post


/-- Slash-join of a path, as in `get_path().join("/")` (src/main.rs:217). -/
def joinSlash (l : List (List Char)) : List Char :=
  List.intercalate ['/'] l

/-- The projector's `HashMap<String, RefCell<Vec<String>>>`, modelled as an
association list in first-insertion order (no claim depends on the map's
iteration order). -/
abbrev Keymap := List (List Char × List (List Char))

def kmFind : Keymap → List Char → Option (List (List Char))
  | [], _ => Option.none
  | e :: rest, k => if e.1 = k then some e.2 else kmFind rest k

/-- Replace the value of the first entry with key `k` (the key is present
whenever the projector calls this). -/
def kmSet (km : Keymap) (k : List Char) (v : List (List Char)) : Keymap :=
  match km with
  | [] => []
  | e :: rest => if e.1 = k then (k, v) :: rest else e :: kmSet rest k v

/-- Rust `Vec::resize(n, String::new())` (src/main.rs:223): truncate to `n`
when longer, pad with empty strings to `n` when shorter. -/
def vecResize (v : List (List Char)) (n : Nat) : List (List Char) :=
  v.take n ++ List.replicate (n - v.length) []

/-- The leaf step of the projector (src/main.rs:219-226): ensure the key,
resize its vector to the current row counter, then push the leaf's data. -/
def csvLeafInsert (km : Keymap) (path : List Char) (d : List Char) (idx : Nat) : Keymap :=
  let km₁ := if (kmFind km path).isSome then km else km ++ [(path, [])]
  let old := (kmFind km₁ path).getD []
  kmSet km₁ path (vecResize old idx ++ [d])

/-- Function `recursive_csv_format` (src/main.rs:211): depth-first walk accumulating
`(keymap, row counter)`.  Fuel bounds the recursion depth; on parser heaps
(children indices strictly larger than the parent's) `heap.length` fuel is
enough, as proved below. -/
def recursive_csv_format (h : Heap) : Nat → Nat → Keymap × Nat → Keymap × Nat
  | 0, _, acc => acc
  | fuel + 1, i, (km, idx) =>
    let nd := nodeAt h i
    if nd.children.isEmpty then
      if nd.data.length > 0 ∧ nd.name.length > 0 then
        (csvLeafInsert km (joinSlash (getPath h i)) nd.data idx, idx)
      else (km, idx)
    else
      let acc := nd.children.foldl (fun acc c => recursive_csv_format h fuel c acc) (km, idx)
      (acc.1, acc.2 + 1)

/-- The keymap/row-count stage of `csv_formatter` (src/main.rs:241-248). -/
def csvFormatMap (h : Heap) : Keymap × Nat :=
  recursive_csv_format h h.length 0 ([], 0)

/-- Rust `format!("{}", n)` for a `usize`. -/
def natRepr (n : Nat) : List Char := (Nat.repr n).data

/-- Rust `str::split(sep)`: split at every separator, keeping empty pieces;
never returns an empty list. -/
def splitChar (sep : Char) : List Char → List (List Char)
  | [] => [[]]
  | c :: cs =>
    match splitChar sep cs with
    | [] => [[]]
    | g :: gs => if c = sep then [] :: g :: gs else (c :: g) :: gs

/-- The inner loop of `csv_parse` over the declared columns
(src/main.rs:336-344): build one leaf per column, failing at the first
column index the row is missing.  Every leaf's parent back-reference is
`root2` (heap index 1), exactly as in the source. -/
def buildKeysAux (row : List (List Char)) : List (List Char) → Nat → Nat →
    Except (List Char) (List XMLNode)
  | [], _, _ => .ok []
  | k :: ks, ki, ri =>
    if row.length ≤ ki then
      .error ("Expected key ".data ++ natRepr ki ++ " for row ".data ++ natRepr ri)
    else
      match buildKeysAux row ks (ki + 1) ri with
      | .error e => .error e
      | .ok ns => .ok (⟨k, row.getD ki [], some 1, []⟩ :: ns)

/-- The row loop of `csv_parse` (src/main.rs:332-346): per row allocate the
"element" node, then its leaves, then append the element to `root2`'s
children. -/
def csvBuildRows (km : List (List Char)) :
    List (List (List Char)) → Nat → Heap → Except (List Char) Heap
  | [], _, h => .ok h
  | row :: rest, ri, h =>
    let elemIdx := h.length
    match buildKeysAux row km 0 ri with
    | .error e => .error e
    | .ok subs =>
      let subIdxs := (List.range km.length).map (fun k => elemIdx + 1 + k)
      let h₁ := h ++ (⟨"element".data, [], some 1, subIdxs⟩ : XMLNode) :: subs
      let h₂ := setChildren h₁ 1 ((nodeAt h₁ 1).children ++ [elemIdx])
      csvBuildRows km rest (ri + 1) h₂

/-- The two-level synthetic wrapper `root → root2` seeded by `csv_parse`
(src/main.rs:288-290). -/
def initCsvHeap : Heap :=
  [⟨"root".data, [], Option.none, [1]⟩, ⟨"root2".data, [], some 0, []⟩]

/-- The source function `csv_parser` (src/main.rs:284), named `csv_parse` here: trim, split into lines, read the header,
then build the tree row by row. -/
def csv_parse (s : List Char) : Except (List Char) Heap :=
  let lines := splitChar '\n' (trim s)
  if lines.length ≤ 1 then .error ("No entries in CSV file".data)
  else
    let km := splitChar ',' (lines.headD [])
    let rows := lines.tail.map (splitChar ',')
    csvBuildRows km rows 0 initCsvHeap

/-- The ownership tree of a heap, read off through the children lists (the
view the serializer walks).  Fuel bounds the depth; on the heaps the two
parsers produce, `heap.length` fuel is enough. -/
inductive Tree where
  | node : List Char → List Char → List Tree → Tree
deriving Repr

def Tree.name : Tree → List Char
  | .node n _ _ => n

def Tree.tdata : Tree → List Char
  | .node _ d _ => d

def Tree.children : Tree → List Tree
  | .node _ _ cs => cs

def toTree (h : Heap) : Nat → Nat → Tree
  | 0, i => .node (nodeAt h i).name (nodeAt h i).data []
  | fuel + 1, i =>
    .node (nodeAt h i).name (nodeAt h i).data
      ((nodeAt h i).children.map (toTree h fuel))

/-- Indentation `"  ".repeat(depth)` (src/main.rs:360). -/
def indentChars (d : Nat) : List Char := (List.replicate d ("  ".data)).flatten

mutual

/-- Function `recursive_xml_reverse_parse` (src/main.rs:356): emit indentation, the
opening tag, the data when non-empty, a newline and the children when any,
re-indentation before the closing tag when there were children, the closing
tag, and a final newline. -/
def recursive_xml_reverse_parse : Tree → Nat → List XMLTerm
  | .node n d cs, depth =>
    [XMLTerm.text (indentChars depth), XMLTerm.openingTag n]
    ++ (if d.length > 0 then [XMLTerm.text d] else [])
    ++ (if cs.length > 0 then [XMLTerm.text ['\n']] else [])
    ++ serializeForest cs (depth + 1)
    ++ (if cs.length > 0 then [XMLTerm.text (indentChars depth)] else [])
    ++ [XMLTerm.closingTag n, XMLTerm.text ['\n']]

/-- The `for child in children` recursion of src/main.rs:376-378. -/
def serializeForest : List Tree → Nat → List XMLTerm
  | [], _ => []
  | t :: ts, depth => recursive_xml_reverse_parse t depth ++ serializeForest ts depth

end

/-- The source function `xml_reverse_parser` (src/main.rs:394), named `xml_reverse_parse_root` here: `Option.none` is the
`panic!("Invalid XML tree")` on a childless root; otherwise serialize the
first top-level child only. -/
def xml_reverse_parse_root (root : Tree) : Option (List XMLTerm) :=
  match root.children with
  | [] => Option.none
  | c :: _ => some (recursive_xml_reverse_parse c 0)

/-- Rendering of one term inside `xml_formatter` (src/main.rs:414-418). -/
def renderTerm : XMLTerm → List Char
  | .openingTag s => '<' :: s ++ ['>']
  | .closingTag s => '<' :: '/' :: s ++ ['>']
  | .text s => s
  | .none => []

/-- Function `xml_formatter` (src/main.rs:408): the fixed declaration line followed by
the rendered terms. -/
def xml_formatter (ts : List XMLTerm) : List Char :=
  "<?xml version=\"1.0\"?>\n".data ++ (ts.map renderTerm).flatten


/-- How many children lists of the heap contain `j`, with multiplicity: the
number of parent slots holding `j`. -/
def containerCount : Heap → Nat → Nat
  | [], _ => 0
  | nd :: rest, j => nd.children.count j + containerCount rest j


/-- An abstract markup document item: a text run or an element with mixed
content.  `flattenItem` below gives the exact term sequence the Lexer
produces for the corresponding concrete markup input. -/
inductive Item where
  | txt : List Char → Item
  | el : List Char → List Item → Item
deriving Repr

mutual

/-- The term span of one item: `OpeningTag n, …content…, ClosingTag n` for
an element, a single `Text` term for a text run. -/
def flattenItem : Item → List XMLTerm
  | .txt s => [XMLTerm.text s]
  | .el n content => XMLTerm.openingTag n :: (flattenForest content ++ [XMLTerm.closingTag n])

def flattenForest : List Item → List XMLTerm
  | [] => []
  | it :: rest => flattenItem it ++ flattenForest rest

end

mutual

/-- Number of element nodes in an item (the heap cells its parse allocates). -/
def sizeItem : Item → Nat
  | .txt _ => 0
  | .el _ content => 1 + sizeForest content

def sizeForest : List Item → Nat
  | [] => 0
  | it :: rest => sizeItem it + sizeForest rest

end

/-- Concatenation of a forest's top-level text runs: the `data` the Tree
Parser accumulates on the enclosing element. -/
def forestData : List Item → List Char
  | [] => []
  | .txt s :: rest => s ++ forestData rest
  | .el _ _ :: rest => forestData rest

/-- Heap indices at which the element items of a forest are allocated when
allocation starts at `base` (depth-first preorder). -/
def elIdxs (base : Nat) : List Item → List Nat
  | [] => []
  | .txt _ :: rest => elIdxs base rest
  | .el _ content :: rest => base :: elIdxs (base + 1 + sizeForest content) rest

mutual

/-- The heap the parser loop builds from the balanced term span of a forest
processed under the node `top`: text runs extend `top`'s data, elements are
allocated, linked under `top` and filled recursively. -/
def buildForest (h : Heap) (top : Nat) : List Item → Heap
  | [] => h
  | .txt s :: rest => buildForest (appendData h top s) top rest
  | .el n content :: rest =>
    buildForest (buildItemHeap h top n content) top rest

def buildItemHeap (h : Heap) (top : Nat) (n : List Char) (content : List Item) : Heap :=
  buildForest
    (setChildren (h ++ [⟨n, [], some top, []⟩]) top
      ((nodeAt (h ++ [⟨n, [], some top, []⟩]) top).children ++ [h.length]))
    h.length content

end

mutual

/-- The ownership tree of an element item as the parser reconstructs it:
text runs merge into the element's data, child elements keep their order. -/
def itemTree : Item → Tree
  | .txt s => .node [] s []
  | .el n content => .node n (forestData content) (elemTrees content)

def elemTrees : List Item → List Tree
  | [] => []
  | .txt _ :: rest => elemTrees rest
  | .el n content :: rest => itemTree (.el n content) :: elemTrees rest

end

mutual

/-- The canonical item of a tree: its data (if any) first, then its child
elements — the shape the serializer's output lexes back to. -/
def canonItem : Tree → Item
  | .node n d cs => .el n ((if d = [] then [] else [Item.txt d]) ++ canonForest cs)

def canonForest : List Tree → List Item
  | [] => []
  | t :: ts => canonItem t :: canonForest ts

end

/-- A character that may appear in a lexed tag name. -/
def nameChar (c : Char) : Prop := c ≠ '<' ∧ c ≠ '>' ∧ c ≠ '?' ∧ c ≠ '/'

/-- A character that may appear in a lexed text run. -/
def textChar (c : Char) : Prop := c ≠ '<' ∧ c ≠ '>' ∧ c ≠ '?'

/-- Shape of the names a successful lex emits: non-empty, trimmed, free of
the markup-significant characters. -/
def goodName (n : List Char) : Prop :=
  n ≠ [] ∧ trim n = n ∧ ∀ c ∈ n, nameChar c

/-- Shape of the text runs a successful lex emits. -/
def goodText (s : List Char) : Prop :=
  s ≠ [] ∧ trim s = s ∧ ∀ c ∈ s, textChar c

mutual

/-- Well-formed document item: names and text runs as the lexer emits them,
and no element whose accumulated data begins with `/` (such data would make
the serializer's output un-lexable, see the C3 analysis). -/
def wfItem : Item → Prop
  | .txt s => goodText s
  | .el n content => goodName n ∧ wfForest content ∧
      ∀ c₀, (forestData content).head? = some c₀ → c₀ ≠ '/'

def wfForest : List Item → Prop
  | [] => True
  | it :: rest => wfItem it ∧ wfForest rest

end

/-- Well-formed data payload on a reconstructed tree node. -/
def goodData (d : List Char) : Prop :=
  d ≠ [] ∧ trim d = d ∧ (∀ c ∈ d, textChar c) ∧ ∀ c₀, d.head? = some c₀ → c₀ ≠ '/'

mutual

/-- Well-formed reconstructed tree: what `itemTree` of a well-formed item
satisfies, and what the lexer-inversion argument needs. -/
def wfTree : Tree → Prop
  | .node n d cs => goodName n ∧ (d = [] ∨ goodData d) ∧ wfTreeList cs

def wfTreeList : List Tree → Prop
  | [] => True
  | t :: ts => wfTree t ∧ wfTreeList ts

end

mutual

/-- The "clean" term span of a tree: what lexing the serializer's rendering
of the tree emits. -/
def cleanTerms : Tree → List XMLTerm
  | .node n d cs =>
    XMLTerm.openingTag n :: ((if d = [] then [] else [XMLTerm.text d])
      ++ cleanForest cs ++ [XMLTerm.closingTag n])

def cleanForest : List Tree → List XMLTerm
  | [] => []
  | t :: ts => cleanTerms t ++ cleanForest ts

end

/-- Rendered characters of a subtree's serialization at a given depth. -/
def renderTree (t : Tree) (d : Nat) : List Char :=
  ((recursive_xml_reverse_parse t d).map renderTerm).flatten

/-- Rendered characters of a forest's serialization. -/
def renderForest (ts : List Tree) (d : Nat) : List Char :=
  ((serializeForest ts d).map renderTerm).flatten

/-- The structural invariant of heaps built by the Tree Parser: the root is
node 0 with no parent; every other node's parent points strictly downward;
children point strictly upward and stay in range; each child's
back-reference is its container; every non-root node sits in exactly one
children list and the root in none. -/
structure ParserInv (h : Heap) : Prop where
  pos : 0 < h.length
  root_parent : (nodeAt h 0).parent = Option.none
  root_name : (nodeAt h 0).name = "root".data
  parent_lt : ∀ i, 0 < i → i < h.length → ∃ p, (nodeAt h i).parent = some p ∧ p < i
  child_range : ∀ i, i < h.length → ∀ c ∈ (nodeAt h i).children, i < c ∧ c < h.length
  parent_child : ∀ i, i < h.length → ∀ c ∈ (nodeAt h i).children,
    (nodeAt h c).parent = some i
  once : ∀ j, 0 < j → j < h.length → containerCount h j = 1
  count0 : containerCount h 0 = 0

/-- The structural invariant of the heaps the Table Ingestor builds: the
fixed two-level wrapper sits at indices 0 and 1, all further nodes hang off
it, every non-root node sits in exactly one children list, and every node
at depth ≥ 2 has parent back-reference `root2` (index 1). -/
structure CsvInv (h : Heap) : Prop where
  len2 : 2 ≤ h.length
  node0 : nodeAt h 0 = ⟨"root".data, [], Option.none, [1]⟩
  node1_parent : (nodeAt h 1).parent = some 0
  node1_children : ∀ c ∈ (nodeAt h 1).children,
    2 ≤ c ∧ c < h.length ∧ (nodeAt h c).parent = some 1
  high_children : ∀ i, 2 ≤ i → i < h.length → ∀ c ∈ (nodeAt h i).children,
    2 ≤ c ∧ c < h.length ∧ (nodeAt h c).parent = some 1 ∧ (nodeAt h c).children = []
  once : ∀ j, 0 < j → j < h.length → containerCount h j = 1
  count0 : containerCount h 0 = 0

end XMLCSV

deriving instance DecidableEq for Except

-- ## General lemmas

namespace XMLCSV

/-- Splitting the parser loop at a concatenation point. -/
theorem parserLoop_append (a b : List XMLTerm) (stack : List Nat) (h : Heap) :
    parserLoop (a ++ b) stack h =
      match parserLoop a stack h with
      | .ok (h', st') => parserLoop b st' h'
      | .error e => .error e
      | .fatal => .fatal := by
  induction a generalizing stack h with
  | nil => simp [parserLoop]
  | cons t rest ih =>
    cases t with
    | openingTag s =>
      cases stack with
      | nil => simp [parserLoop]
      | cons top stack' => simp only [List.cons_append, parserLoop]; exact ih _ _
    | closingTag s =>
      cases stack with
      | nil => simp [parserLoop]
      | cons top stack' =>
        simp only [List.cons_append, parserLoop]
        by_cases hs : s = (nodeAt h top).name
        · simp only [hs, if_pos rfl]; exact ih _ _
        · simp [hs]
    | text s =>
      cases stack with
      | nil => simp [parserLoop]
      | cons top stack' => simp only [List.cons_append, parserLoop]; exact ih _ _
    | none => simp only [List.cons_append, parserLoop]; exact ih _ _

end XMLCSV

-- ## Claim theorems

/-- C9: lexing the exact input `<a>hi</a>` succeeds and yields exactly the
three terms OpeningTag "a", Text "hi", ClosingTag "a", in that order. -/
theorem claim_C9_lexer_ahi :
    XMLCSV.lexer ("<a>hi</a>".data) =
      .ok [.openingTag "a".data, .text "hi".data, .closingTag "a".data] := by
  decide

/-- C10: the Tree Parser is not total as an Ok-or-Err function: once a
matching `ClosingTag "root"` has popped the seeded root off the stack (the
loop has reached an empty stack), any further term other than `None` makes
the parser hit `Stack::top` on an empty vector and panic (`PResult.fatal`)
rather than return a tree or an error. -/
theorem claim_C10_parser_panics (ts₁ : List XMLCSV.XMLTerm) (t : XMLCSV.XMLTerm)
    (rest : List XMLCSV.XMLTerm) (h : XMLCSV.Heap)
    (hrun : XMLCSV.parserLoop ts₁ [0] XMLCSV.initHeap = .ok (h, []))
    (ht : t ≠ XMLCSV.XMLTerm.none) :
    XMLCSV.parser (ts₁ ++ t :: rest) = .fatal := by
  unfold XMLCSV.parser
  rw [XMLCSV.parserLoop_append, hrun]
  cases t with
  | openingTag s => simp [XMLCSV.parserLoop]
  | closingTag s => simp [XMLCSV.parserLoop]
  | text s => simp [XMLCSV.parserLoop]
  | none => exact absurd rfl ht

/-- Witness for C10: the sequence `ClosingTag "root", OpeningTag "x"` pops
the root and then panics. -/
theorem claim_C10_witness :
    XMLCSV.parser [.closingTag "root".data, .openingTag "x".data] = .fatal := by
  have h0 : XMLCSV.parserLoop [.closingTag "root".data] [0] XMLCSV.initHeap =
      .ok (XMLCSV.initHeap, []) := by decide
  exact claim_C10_parser_panics [.closingTag "root".data] (.openingTag "x".data) [] _ h0 (by decide)

/-- C4: whenever the Tree Parser meets a ClosingTag whose name differs from
the current stack top's name, it returns an error naming both the found and
the expected name; in particular the terms of `<a></b>` fail with a message
naming both `a` and `b`. -/
theorem claim_C4_mismatched_closing :
    (∀ (ts₁ : List XMLCSV.XMLTerm) (s : List Char) (rest : List XMLCSV.XMLTerm)
       (h : XMLCSV.Heap) (stack : List Nat) (top : Nat),
      XMLCSV.parserLoop ts₁ [0] XMLCSV.initHeap = .ok (h, top :: stack) →
      s ≠ (XMLCSV.nodeAt h top).name →
      ∃ msg, XMLCSV.parser (ts₁ ++ .closingTag s :: rest) = .error msg ∧
        XMLCSV.containsSub s msg ∧ XMLCSV.containsSub (XMLCSV.nodeAt h top).name msg) ∧
    (∃ msg,
      XMLCSV.lexer "<a></b>".data = .ok [.openingTag "a".data, .closingTag "b".data] ∧
      XMLCSV.parser [.openingTag "a".data, .closingTag "b".data] = .error msg ∧
      XMLCSV.containsSub "a".data msg ∧ XMLCSV.containsSub "b".data msg) := by
  constructor
  · intro ts₁ s rest h stack top hrun hne
    refine ⟨"Unexpected closing tag. Found: ".data ++ s
      ++ ", Expected: ".data ++ (XMLCSV.nodeAt h top).name, ?_, ?_, ?_⟩
    · unfold XMLCSV.parser
      rw [XMLCSV.parserLoop_append, hrun]
      simp [XMLCSV.parserLoop, hne]
    · exact ⟨"Unexpected closing tag. Found: ".data,
        ", Expected: ".data ++ (XMLCSV.nodeAt h top).name, by simp⟩
    · exact ⟨"Unexpected closing tag. Found: ".data ++ s ++ ", Expected: ".data, [],
        by simp⟩
  · refine ⟨"Unexpected closing tag. Found: b, Expected: a".data, by decide, by decide,
      ⟨"Unexpected closing tag. Found: b, Expected: ".data, [], by decide⟩,
      ⟨"Unexpected closing tag. Found: ".data, ", Expected: a".data, by decide⟩⟩

/-- Witness for C4: instantiating the general statement after the single
term `OpeningTag "a"`, whose parse state has the `a` node on top. -/
theorem claim_C4_witness :
    ∃ msg, XMLCSV.parser ([.openingTag "a".data] ++ .closingTag "b".data :: []) = .error msg ∧
      XMLCSV.containsSub "b".data msg ∧
      XMLCSV.containsSub (XMLCSV.nodeAt
        [⟨"root".data, [], Option.none, [1]⟩, ⟨"a".data, [], some 0, []⟩] 1).name msg :=
  claim_C4_mismatched_closing.1 [.openingTag "a".data] "b".data []
    [⟨"root".data, [], Option.none, [1]⟩, ⟨"a".data, [], some 0, []⟩] [0] 1
    (by decide) (by decide)

/-- C8: for every tree whose root has at least one child, the Tree
Serializer emits exactly the terms of the first child's subtree; additional
top-level siblings contribute nothing and cause no error. -/
theorem claim_C8_first_child_only (n d : List Char) (c : XMLCSV.Tree)
    (cs : List XMLCSV.Tree) :
    XMLCSV.xml_reverse_parse_root (.node n d (c :: cs)) =
        some (XMLCSV.recursive_xml_reverse_parse c 0) ∧
    XMLCSV.xml_reverse_parse_root (.node n d (c :: cs)) =
        XMLCSV.xml_reverse_parse_root (.node n d [c]) := by
  constructor <;> rfl

namespace XMLCSV

/-- When the row has at least `ki + keys.length` fields, the column loop
succeeds and yields one leaf per remaining key. -/
theorem buildKeysAux_ok (row : List (List Char)) :
    ∀ (ks : List (List Char)) (ki ri : Nat), ki + ks.length ≤ row.length →
      ∃ ns, buildKeysAux row ks ki ri = .ok ns ∧ ns.length = ks.length := by
  intro ks
  induction ks with
  | nil => intro ki ri _; exact ⟨[], rfl, rfl⟩
  | cons k ks ih =>
    intro ki ri hle
    have hki : ¬ row.length ≤ ki := by simp at hle ⊢; omega
    obtain ⟨ns, hns, hlen⟩ := ih (ki + 1) ri (by simp at hle ⊢; omega)
    refine ⟨⟨k, row.getD ki [], some 1, []⟩ :: ns, ?_, by simp [hlen]⟩
    simp only [buildKeysAux, if_neg hki, hns]

/-- When the row runs out of fields among the remaining keys, the column
loop fails at the first missing index, which is the row's field count. -/
theorem buildKeysAux_error (row : List (List Char)) :
    ∀ (ks : List (List Char)) (ki ri : Nat),
      ki ≤ row.length → row.length < ki + ks.length →
      buildKeysAux row ks ki ri =
        .error ("Expected key ".data ++ natRepr row.length
                  ++ " for row ".data ++ natRepr ri) := by
  intro ks
  induction ks with
  | nil => intro ki ri h₁ h₂; simp at h₂; omega
  | cons k ks ih =>
    intro ki ri h₁ h₂
    by_cases hki : row.length ≤ ki
    · have : row.length = ki := le_antisymm hki h₁
      simp only [buildKeysAux, this, if_pos (le_refl ki)]
    · have h₁' : ki + 1 ≤ row.length := by omega
      have h₂' : row.length < (ki + 1) + ks.length := by simp at h₂; omega
      simp only [buildKeysAux, if_neg hki, ih (ki + 1) ri h₁' h₂']

/-- The row loop fails on the first row with fewer fields than declared
columns, naming that row's index and its field count (the first missing
column index). -/
theorem csvBuildRows_error (km : List (List Char)) :
    ∀ (rows : List (List (List Char))) (ri : Nat) (h : Heap) (r₀ : Nat),
      r₀ < rows.length →
      (rows.getD r₀ []).length < km.length →
      (∀ r, r < r₀ → km.length ≤ (rows.getD r []).length) →
      csvBuildRows km rows ri h =
        .error ("Expected key ".data ++ natRepr (rows.getD r₀ []).length
                  ++ " for row ".data ++ natRepr (ri + r₀)) := by
  intro rows
  induction rows with
  | nil => intro ri h r₀ hr; simp at hr
  | cons row rest ih =>
    intro ri h r₀ hr hbad hfirst
    cases r₀ with
    | zero =>
      have : (List.getD (row :: rest) 0 []) = row := rfl
      rw [this] at hbad ⊢
      have herr := buildKeysAux_error row km 0 ri (Nat.zero_le _) (by omega)
      simp only [csvBuildRows, herr, Nat.add_zero]
    | succ r =>
      have hrow : km.length ≤ row.length := by
        have := hfirst 0 (Nat.succ_pos _)
        simpa using this
      obtain ⟨ns, hns, _⟩ := buildKeysAux_ok row km 0 ri (by omega)
      have hget : (List.getD (row :: rest) (r + 1) []) = rest.getD r [] := rfl
      rw [hget] at hbad ⊢
      simp only [csvBuildRows, hns]
      have := ih (ri + 1)
        (setChildren (h ++ (⟨"element".data, [], some 1,
            (List.range km.length).map (fun k => h.length + 1 + k)⟩ : XMLNode) :: ns) 1
          ((nodeAt (h ++ (⟨"element".data, [], some 1,
            (List.range km.length).map (fun k => h.length + 1 + k)⟩ : XMLNode) :: ns) 1).children
            ++ [h.length]))
        r (by simpa using hr) hbad
        (fun r' hr' => by
          have := hfirst (r' + 1) (Nat.succ_lt_succ hr')
          simpa using this)
      rw [this]
      have : ri + 1 + r = ri + (r + 1) := by omega
      rw [this]

end XMLCSV

/-- C6: past the header, if some data row has fewer fields than the declared
column count, the Table Ingestor returns the error
`Expected key <field count of the first short row> for row <its index>`,
the named column index being the first missing one. -/
theorem claim_C6_short_row_error (s : List Char) (r₀ : Nat)
    (hlines : 2 ≤ (XMLCSV.splitChar '\n' (XMLCSV.trim s)).length)
    (hr : r₀ < ((XMLCSV.splitChar '\n' (XMLCSV.trim s)).tail.map (XMLCSV.splitChar ',')).length)
    (hbad : (((XMLCSV.splitChar '\n' (XMLCSV.trim s)).tail.map (XMLCSV.splitChar ',')).getD r₀ []).length <
      (XMLCSV.splitChar ',' ((XMLCSV.splitChar '\n' (XMLCSV.trim s)).headD [])).length)
    (hfirst : ∀ r, r < r₀ →
      (XMLCSV.splitChar ',' ((XMLCSV.splitChar '\n' (XMLCSV.trim s)).headD [])).length ≤
        (((XMLCSV.splitChar '\n' (XMLCSV.trim s)).tail.map (XMLCSV.splitChar ',')).getD r []).length) :
    XMLCSV.csv_parse s =
      .error ("Expected key ".data
        ++ XMLCSV.natRepr (((XMLCSV.splitChar '\n' (XMLCSV.trim s)).tail.map
              (XMLCSV.splitChar ',')).getD r₀ []).length
        ++ " for row ".data ++ XMLCSV.natRepr r₀) := by
  have hnot : ¬ (XMLCSV.splitChar '\n' (XMLCSV.trim s)).length ≤ 1 := by omega
  unfold XMLCSV.csv_parse
  simp only [if_neg hnot]
  have := XMLCSV.csvBuildRows_error
    (XMLCSV.splitChar ',' ((XMLCSV.splitChar '\n' (XMLCSV.trim s)).headD []))
    ((XMLCSV.splitChar '\n' (XMLCSV.trim s)).tail.map (XMLCSV.splitChar ','))
    0 XMLCSV.initCsvHeap r₀ hr hbad hfirst
  rw [this, Nat.zero_add]

/-- Witness for C6: `a,b` declares two columns and the single data row `x`
has one field, so ingestion fails with `Expected key 1 for row 0`. -/
theorem claim_C6_witness :
    XMLCSV.csv_parse "a,b\nx".data =
      .error ("Expected key ".data
        ++ XMLCSV.natRepr (((XMLCSV.splitChar '\n' (XMLCSV.trim "a,b\nx".data)).tail.map
              (XMLCSV.splitChar ',')).getD 0 []).length
        ++ " for row ".data ++ XMLCSV.natRepr 0) :=
  claim_C6_short_row_error "a,b\nx".data 0 (by decide) (by decide) (by decide)
    (fun r hr => absurd hr (Nat.not_lt_zero r))

/-- Counterexample for C7: header-only input does fail, but the error
message is `No entries in CSV file` (capital `N`), not the claimed
`no entries in CSV file`. -/
theorem claim_C7_counterexample :
    XMLCSV.csv_parse "name,age".data = .error ("No entries in CSV file".data) ∧
    "No entries in CSV file".data ≠ "no entries in CSV file".data := by
  constructor
  · decide
  · decide

/-- C7 (amended): ingesting `name,age\nAlice,30\nBob,25` succeeds with the
tree root → root2 → two "element" nodes in row order, carrying leaves
`name`/`age` with `Alice`/`30` and `Bob`/`25`; any trimmed input with fewer
than 2 lines fails with the message `No entries in CSV file`. -/
theorem claim_C7_csv_ingest :
    ((XMLCSV.csv_parse "name,age\nAlice,30\nBob,25".data).map
        (fun h => XMLCSV.toTree h h.length 0) =
      .ok (.node "root".data []
        [.node "root2".data []
          [.node "element".data []
            [.node "name".data "Alice".data [], .node "age".data "30".data []],
           .node "element".data []
            [.node "name".data "Bob".data [], .node "age".data "25".data []]]])) ∧
    (∀ s : List Char, (XMLCSV.splitChar '\n' (XMLCSV.trim s)).length ≤ 1 →
      XMLCSV.csv_parse s = .error ("No entries in CSV file".data)) := by
  constructor
  · rfl
  · intro s hs
    unfold XMLCSV.csv_parse
    simp only [if_pos hs]

/-- Witness for C7: the header-only input `name,age` trims to one line and
fails with the capitalised message. -/
theorem claim_C7_witness :
    XMLCSV.csv_parse "name,age".data = .error ("No entries in CSV file".data) :=
  claim_C7_csv_ingest.2 "name,age".data (by decide)

namespace XMLCSV

theorem kmFind_kmSet_self (km : Keymap) (k : List Char) (v : List (List Char)) :
    (kmFind km k).isSome → kmFind (kmSet km k v) k = some v := by
  induction km with
  | nil => intro hs; simp [kmFind] at hs
  | cons e rest ih =>
    intro hs
    by_cases he : e.1 = k
    · simp [kmSet, he, kmFind]
    · have hs' : (kmFind rest k).isSome := by simpa [kmFind, he] using hs
      simpa [kmSet, he, kmFind] using ih hs'

theorem kmFind_kmSet_other (km : Keymap) (k k' : List Char) (v : List (List Char))
    (hne : k' ≠ k) : kmFind (kmSet km k v) k' = kmFind km k' := by
  induction km with
  | nil => simp [kmSet]
  | cons e rest ih =>
    by_cases he : e.1 = k
    · simp [kmSet, he, kmFind, Ne.symm hne]
    · by_cases he' : e.1 = k'
      · simp [kmSet, he, kmFind, he', hne]
      · simpa [kmSet, he, kmFind, he'] using ih

theorem kmFind_append_single (km : Keymap) (k k' : List Char) (v : List (List Char)) :
    kmFind (km ++ [(k, v)]) k' =
      match kmFind km k' with
      | some w => some w
      | Option.none => if k = k' then some v else Option.none := by
  induction km with
  | nil => by_cases hk : k = k' <;> simp [kmFind, hk]
  | cons e rest ih =>
    by_cases he : e.1 = k'
    · simp [kmFind, he]
    · simpa [kmFind, he] using ih

theorem vecResize_length (v : List (List Char)) (n : Nat) :
    (vecResize v n).length = n := by
  simp [vecResize]
  omega

end XMLCSV

/-- Counterexample for C5: the padding step is `Vec::resize(index, "")`,
which truncates a sequence that is already longer than the row counter.  On
the Tree-Parser tree of `<r><a>1</a><a>2</a></r>` the two leaves share the
column key `root/r/a` and the same row counter `0`, so the second leaf's
resize drops the stored value `1`: the final map holds only `["2"]`.  The
claim's "left unchanged (never shortened)" is false: `["1"]` has length
`≥ 0` yet resizing to the counter `0` yields `[]`. -/
theorem claim_C5_counterexample :
    XMLCSV.parser [.openingTag "r".data, .openingTag "a".data, .text "1".data,
        .closingTag "a".data, .openingTag "a".data, .text "2".data,
        .closingTag "a".data, .closingTag "r".data] =
      .ok [⟨"root".data, [], Option.none, [1]⟩, ⟨"r".data, [], some 0, [2, 3]⟩,
           ⟨"a".data, "1".data, some 1, []⟩, ⟨"a".data, "2".data, some 1, []⟩] ∧
    XMLCSV.csvFormatMap
        [⟨"root".data, [], Option.none, [1]⟩, ⟨"r".data, [], some 0, [2, 3]⟩,
         ⟨"a".data, "1".data, some 1, []⟩, ⟨"a".data, "2".data, some 1, []⟩] =
      ([("root/r/a".data, ["2".data])], 2) ∧
    XMLCSV.vecResize ["1".data] 0 = [] ∧
    (0 : Nat) ≤ ("1".data :: []).length ∧ ([] : List (List Char)) ≠ ["1".data] := by
  refine ⟨by decide, by decide, by decide, by decide, by decide⟩

/-- C5 (amended): immediately before a value is appended for a column key,
that key's sequence is resized to length exactly the current row counter:
padded with empty strings when shorter (so sparse columns stay row-aligned,
and in that case no stored value is lost), but truncated when longer, so
stored values at positions at or beyond the counter are dropped.  Other
keys are untouched. -/
theorem claim_C5_resize_exact (km : XMLCSV.Keymap) (path d : List Char) (idx : Nat) :
    XMLCSV.kmFind (XMLCSV.csvLeafInsert km path d idx) path =
      some (XMLCSV.vecResize ((XMLCSV.kmFind km path).getD []) idx ++ [d]) ∧
    (XMLCSV.vecResize ((XMLCSV.kmFind km path).getD []) idx).length = idx ∧
    (∀ k, k < idx → k < ((XMLCSV.kmFind km path).getD []).length →
      (XMLCSV.vecResize ((XMLCSV.kmFind km path).getD []) idx).getD k [] =
        ((XMLCSV.kmFind km path).getD []).getD k []) ∧
    (((XMLCSV.kmFind km path).getD []).length ≤ idx →
      XMLCSV.vecResize ((XMLCSV.kmFind km path).getD []) idx =
        ((XMLCSV.kmFind km path).getD [])
          ++ List.replicate (idx - ((XMLCSV.kmFind km path).getD []).length) []) ∧
    (∀ p', p' ≠ path →
      XMLCSV.kmFind (XMLCSV.csvLeafInsert km path d idx) p' = XMLCSV.kmFind km p') := by
  refine ⟨?_, XMLCSV.vecResize_length _ _, ?_, ?_, ?_⟩
  · unfold XMLCSV.csvLeafInsert
    by_cases hk : (XMLCSV.kmFind km path).isSome
    · simp only [hk, if_pos]
      exact XMLCSV.kmFind_kmSet_self km path _ hk
    · simp only [hk, Bool.false_eq_true, if_neg, not_false_iff]
      have hnone : XMLCSV.kmFind km path = Option.none := by
        cases h : XMLCSV.kmFind km path with
        | none => rfl
        | some w => rw [h] at hk; simp at hk
      have happ := XMLCSV.kmFind_append_single km path path ([] : List (List Char))
      rw [hnone] at happ ⊢
      simp only [if_pos rfl] at happ
      have : (XMLCSV.kmFind (km ++ [(path, [])] : XMLCSV.Keymap) path).isSome := by
        rw [happ]; rfl
      rw [XMLCSV.kmFind_kmSet_self _ path _ this, happ]
      rfl
  · intro k hk hlen
    have h1 : k < (List.take idx ((XMLCSV.kmFind km path).getD [])).length := by
      simp; omega
    rw [XMLCSV.vecResize, List.getD_append _ _ _ _ h1]
    simp only [List.getD, List.get?_eq_getElem?, List.getElem?_take, if_pos hk]
  · intro hle
    simp [XMLCSV.vecResize, List.take_of_length_le hle]
  · intro p' hne
    unfold XMLCSV.csvLeafInsert
    by_cases hk : (XMLCSV.kmFind km path).isSome
    · simp only [hk, if_pos]
      exact XMLCSV.kmFind_kmSet_other km path p' _ hne
    · simp only [hk, Bool.false_eq_true, if_neg, not_false_iff]
      rw [XMLCSV.kmFind_kmSet_other _ path p' _ hne,
        XMLCSV.kmFind_append_single km path p']
      cases h : XMLCSV.kmFind km p' with
      | none => simp [Ne.symm hne]
      | some w => rfl

/-- Witness for C5: key `k` holding `["1"]`, counter `0`: the resize
truncates to length `0` and the push stores only `["2"]`; the padding case
is exercised at counter `2` on an empty sequence; the key `other` is
untouched. -/
theorem claim_C5_witness :
    XMLCSV.kmFind (XMLCSV.csvLeafInsert [("k".data, ["1".data])] "k".data "2".data 0)
        "k".data =
      some (XMLCSV.vecResize ((XMLCSV.kmFind [("k".data, ["1".data])] "k".data).getD []) 0
        ++ ["2".data]) ∧
    XMLCSV.vecResize ((XMLCSV.kmFind ([] : XMLCSV.Keymap) "k".data).getD []) 2 =
      ((XMLCSV.kmFind ([] : XMLCSV.Keymap) "k".data).getD [])
        ++ List.replicate (2 - ((XMLCSV.kmFind ([] : XMLCSV.Keymap) "k".data).getD []).length) [] ∧
    XMLCSV.kmFind (XMLCSV.csvLeafInsert [("k".data, ["1".data])] "k".data "2".data 0)
        "other".data = XMLCSV.kmFind [("k".data, ["1".data])] "other".data :=
  ⟨(claim_C5_resize_exact [("k".data, ["1".data])] "k".data "2".data 0).1,
   ((claim_C5_resize_exact ([] : XMLCSV.Keymap) "k".data "2".data 2).2.2.2.1 (by decide)),
   ((claim_C5_resize_exact [("k".data, ["1".data])] "k".data "2".data 0).2.2.2.2
     "other".data (by decide))⟩

namespace XMLCSV

theorem length_setChildren (h : Heap) (i : Nat) (cs : List Nat) :
    (setChildren h i cs).length = h.length := by
  simp [setChildren]

theorem length_appendData (h : Heap) (i : Nat) (s : List Char) :
    (appendData h i s).length = h.length := by
  simp [appendData]

theorem nodeAt_append_lt (h l : Heap) (i : Nat) (hi : i < h.length) :
    nodeAt (h ++ l) i = nodeAt h i := by
  simp only [nodeAt]
  exact List.getD_append _ _ _ _ hi

theorem nodeAt_append_ge (h l : Heap) (i : Nat) (hi : h.length ≤ i) :
    nodeAt (h ++ l) i = nodeAt l (i - h.length) := by
  simp only [nodeAt]
  exact List.getD_append_right _ _ _ _ hi

theorem nodeAt_set_self (h : Heap) (i : Nat) (nd : XMLNode) (hi : i < h.length) :
    nodeAt (h.set i nd) i = nd := by
  simp [nodeAt, List.getD, List.getElem?_set_self hi]

theorem nodeAt_set_ne (h : Heap) (i : Nat) (nd : XMLNode) (j : Nat) (hne : i ≠ j) :
    nodeAt (h.set i nd) j = nodeAt h j := by
  simp [nodeAt, List.getD, List.getElem?_set_ne hne]

theorem containerCount_append (h l : Heap) (j : Nat) :
    containerCount (h ++ l) j = containerCount h j + containerCount l j := by
  induction h with
  | nil => simp [containerCount]
  | cons nd rest ih => simp [containerCount, ih]; omega

theorem containerCount_set (h : Heap) (i : Nat) (nd : XMLNode) (j : Nat)
    (hi : i < h.length) :
    containerCount (h.set i nd) j + ((nodeAt h i).children).count j =
      containerCount h j + (nd.children).count j := by
  induction h generalizing i with
  | nil => simp at hi
  | cons x rest ih =>
    cases i with
    | zero => simp [containerCount, nodeAt, List.getD]; omega
    | succ i' =>
      have hi' : i' < rest.length := by simpa using hi
      have := ih i' hi'
      have hx : nodeAt (x :: rest) (i' + 1) = nodeAt rest i' := by
        simp [nodeAt, List.getD]
      simp only [List.set, containerCount, hx]
      omega

theorem containerCount_eq_zero (h : Heap) (j : Nat)
    (hj : ∀ nd ∈ h, j ∉ nd.children) : containerCount h j = 0 := by
  induction h with
  | nil => rfl
  | cons nd rest ih =>
    simp only [containerCount]
    rw [List.count_eq_zero.2 (hj nd (List.mem_cons_self _ _)),
      ih (fun x hx => hj x (List.mem_cons_of_mem _ hx))]


end XMLCSV

namespace XMLCSV

theorem count_single_of_ne {a b : Nat} (hne : b ≠ a) : List.count a [b] = 0 := by
  simp [List.count_singleton', hne]

theorem appendData_preserves (h : Heap) (i : Nat) (s : List Char) :
    (∀ j, (nodeAt (appendData h i s) j).parent = (nodeAt h j).parent ∧
          (nodeAt (appendData h i s) j).children = (nodeAt h j).children ∧
          (nodeAt (appendData h i s) j).name = (nodeAt h j).name) ∧
    (∀ j, containerCount (appendData h i s) j = containerCount h j) ∧
    (appendData h i s).length = h.length := by
  refine ⟨?_, ?_, length_appendData h i s⟩
  · intro j
    by_cases hij : i = j
    · subst hij
      by_cases hi : i < h.length
      · rw [appendData, nodeAt_set_self _ _ _ hi]
        exact ⟨rfl, rfl, rfl⟩
      · have : h.set i { nodeAt h i with data := (nodeAt h i).data ++ s } = h :=
          List.set_eq_of_length_le (by omega)
        rw [appendData, this]
        exact ⟨rfl, rfl, rfl⟩
    · rw [appendData, nodeAt_set_ne _ _ _ _ hij]
      exact ⟨rfl, rfl, rfl⟩
  · intro j
    by_cases hi : i < h.length
    · have hset := containerCount_set h i
        { nodeAt h i with data := (nodeAt h i).data ++ s } j hi
      have hch : ({ nodeAt h i with data := (nodeAt h i).data ++ s } : XMLNode).children =
          (nodeAt h i).children := rfl
      rw [hch] at hset
      rw [appendData]
      omega
    · have : h.set i { nodeAt h i with data := (nodeAt h i).data ++ s } = h :=
        List.set_eq_of_length_le (by omega)
      rw [appendData, this]

/-- The parser's loop preserves the heap invariant and the in-range property
of the stack. -/
theorem parserLoop_inv : ∀ (ts : List XMLTerm) (stack : List Nat) (h : Heap)
    (h' : Heap) (stack' : List Nat),
    ParserInv h → (∀ i ∈ stack, i < h.length) →
    parserLoop ts stack h = .ok (h', stack') →
    ParserInv h' ∧ (∀ i ∈ stack', i < h'.length) := by
  intro ts
  induction ts with
  | nil =>
    intro stack h h' stack' hinv hstack hok
    simp only [parserLoop, PResult.ok.injEq, Prod.mk.injEq] at hok
    obtain ⟨rfl, rfl⟩ := hok
    exact ⟨hinv, hstack⟩
  | cons t rest ih =>
    intro stack h h' stack' hinv hstack hok
    cases t with
    | openingTag s =>
      cases stack with
      | nil => simp [parserLoop] at hok
      | cons top stack₀ =>
        have htop : top < h.length := hstack top (List.mem_cons_self _ _)
        simp only [parserLoop] at hok
        set newNode : XMLNode := ⟨s, [], some top, []⟩ with hnew
        set h₁ : Heap := h ++ [newNode] with hh₁
        set h₂ : Heap := setChildren h₁ top ((nodeAt h₁ top).children ++ [h.length]) with hh₂
        have hlen₁ : h₁.length = h.length + 1 := by simp [hh₁]
        have hlen₂ : h₂.length = h.length + 1 := by
          rw [hh₂, length_setChildren, hlen₁]
        have htop₁ : top < h₁.length := by omega
        have hat₁ : nodeAt h₁ top = nodeAt h top := nodeAt_append_lt _ _ _ htop
        have hB : nodeAt h₂ top =
            { nodeAt h top with children := (nodeAt h top).children ++ [h.length] } := by
          rw [hh₂, setChildren, nodeAt_set_self _ _ _ (by omega), hat₁]
        have hA : ∀ j, j ≠ top → j < h.length → nodeAt h₂ j = nodeAt h j := by
          intro j hj hjl
          rw [hh₂, setChildren, nodeAt_set_ne _ _ _ _ (Ne.symm hj)]
          exact nodeAt_append_lt _ _ _ hjl
        have hC : nodeAt h₂ h.length = newNode := by
          have : top ≠ h.length := by omega
          rw [hh₂, setChildren, nodeAt_set_ne _ _ _ _ this, hh₁,
            nodeAt_append_ge _ _ _ (le_refl _), Nat.sub_self]
          rfl
        have hParent : ∀ j, j < h.length →
            (nodeAt h₂ j).parent = (nodeAt h j).parent := by
          intro j hjl
          by_cases hj : j = top
          · subst hj; rw [hB]
          · rw [hA j hj hjl]
        have hName : ∀ j, j < h.length →
            (nodeAt h₂ j).name = (nodeAt h j).name := by
          intro j hjl
          by_cases hj : j = top
          · subst hj; rw [hB]
          · rw [hA j hj hjl]
        have hcount : ∀ j, containerCount h₂ j =
            containerCount h j + List.count j [h.length] := by
          intro j
          have hc1 : containerCount h₁ j = containerCount h j := by
            rw [hh₁, containerCount_append]
            simp [containerCount, hnew]
          have hset := containerCount_set h₁ top
            { nodeAt h₁ top with children := (nodeAt h₁ top).children ++ [h.length] }
            j htop₁
          have hch : ({ nodeAt h₁ top with
              children := (nodeAt h₁ top).children ++ [h.length] } : XMLNode).children =
            (nodeAt h₁ top).children ++ [h.length] := rfl
          rw [hch, List.count_append] at hset
          rw [hh₂, setChildren]
          omega
        have hinv₂ : ParserInv h₂ := by
          refine ⟨by omega, ?_, ?_, ?_, ?_, ?_, ?_, ?_⟩
          · rw [hParent 0 hinv.pos]; exact hinv.root_parent
          · rw [hName 0 hinv.pos]; exact hinv.root_name
          · intro i hi0 hil
            rw [hlen₂] at hil
            by_cases hi : i = h.length
            · subst hi
              rw [hC]
              exact ⟨top, rfl, htop⟩
            · have hil' : i < h.length := by omega
              rw [hParent i hil']
              exact hinv.parent_lt i hi0 hil'
          · intro i hil c hc
            rw [hlen₂] at hil
            by_cases hi : i = h.length
            · subst hi
              rw [hC] at hc
              simp [hnew] at hc
            · have hil' : i < h.length := by omega
              by_cases hit : i = top
              · subst hit
                rw [hB] at hc
                simp only [List.mem_append, List.mem_singleton] at hc
                rcases hc with hc | hc
                · have := hinv.child_range i hil' c hc
                  omega
                · omega
              · rw [hA i hit hil'] at hc
                have := hinv.child_range i hil' c hc
                omega
          · intro i hil c hc
            rw [hlen₂] at hil
            by_cases hi : i = h.length
            · subst hi
              rw [hC] at hc
              simp [hnew] at hc
            · have hil' : i < h.length := by omega
              by_cases hit : i = top
              · subst hit
                rw [hB] at hc
                simp only [List.mem_append, List.mem_singleton] at hc
                rcases hc with hc | hc
                · have hcr := hinv.child_range i hil' c hc
                  rw [hParent c hcr.2]
                  exact hinv.parent_child i hil' c hc
                · subst hc
                  rw [hC]
              · rw [hA i hit hil'] at hc
                have hcr := hinv.child_range i hil' c hc
                rw [hParent c hcr.2]
                exact hinv.parent_child i hil' c hc
          · intro j hj0 hjl
            rw [hlen₂] at hjl
            rw [hcount j]
            by_cases hj : j = h.length
            · subst hj
              have hzero : containerCount h h.length = 0 := by
                apply containerCount_eq_zero
                intro nd hnd hmem
                obtain ⟨k, hk, hkeq⟩ := List.mem_iff_getElem.1 hnd
                have : nodeAt h k = nd := by
                  simp [nodeAt, List.getD, List.getElem?_eq_getElem hk]
                  exact hkeq
                rw [← this] at hmem
                have := (hinv.child_range k hk h.length hmem).2
                omega
              rw [hzero]
              simp
            · have hjl' : j < h.length := by omega
              rw [hinv.once j hj0 hjl']
              rw [count_single_of_ne (fun he => hj he.symm)]
          · rw [hcount 0, hinv.count0,
              count_single_of_ne (fun he : h.length = 0 => by omega)]
        refine ih _ _ _ _ hinv₂ ?_ hok
        intro i hi
        simp only [List.mem_cons] at hi
        rcases hi with rfl | rfl | hi
        · omega
        · omega
        · have := hstack i (List.mem_cons_of_mem _ hi)
          omega
    | closingTag s =>
      cases stack with
      | nil => simp [parserLoop] at hok
      | cons top stack₀ =>
        simp only [parserLoop] at hok
        by_cases hs : s = (nodeAt h top).name
        · rw [if_pos hs] at hok
          exact ih _ _ _ _ hinv (fun i hi => hstack i (List.mem_cons_of_mem _ hi)) hok
        · rw [if_neg hs] at hok
          cases hok
    | text s =>
      cases stack with
      | nil => simp [parserLoop] at hok
      | cons top stack₀ =>
        simp only [parserLoop] at hok
        obtain ⟨hpres, hcnt, hlen⟩ := appendData_preserves h top s
        have hinv' : ParserInv (appendData h top s) := by
          refine ⟨by rw [hlen]; exact hinv.pos, ?_, ?_, ?_, ?_, ?_, ?_, ?_⟩
          · rw [(hpres 0).1]; exact hinv.root_parent
          · rw [(hpres 0).2.2]; exact hinv.root_name
          · intro i hi0 hil
            rw [hlen] at hil
            rw [(hpres i).1]
            exact hinv.parent_lt i hi0 hil
          · intro i hil c hc
            rw [hlen] at hil
            rw [(hpres i).2.1] at hc
            rw [hlen]
            exact hinv.child_range i hil c hc
          · intro i hil c hc
            rw [hlen] at hil
            rw [(hpres i).2.1] at hc
            rw [(hpres c).1]
            exact hinv.parent_child i hil c hc
          · intro j hj0 hjl
            rw [hlen] at hjl
            rw [hcnt j]
            exact hinv.once j hj0 hjl
          · rw [hcnt 0]; exact hinv.count0
        refine ih _ _ _ _ hinv' ?_ hok
        intro i hi
        rw [hlen]
        exact hstack i hi
    | none =>
      simp only [parserLoop] at hok
      exact ih _ _ _ _ hinv hstack hok

/-- The invariant holds for every heap the Tree Parser returns. -/
theorem parser_inv (ts : List XMLTerm) (h : Heap) (hok : parser ts = .ok h) :
    ParserInv h := by
  unfold parser at hok
  cases hrun : parserLoop ts [0] initHeap with
  | ok p =>
    obtain ⟨h₀, st₀⟩ := p
    rw [hrun] at hok
    simp only [PResult.ok.injEq] at hok
    subst hok
    have hinit : ParserInv initHeap := by
      refine ⟨by decide, by decide, by decide, ?_, ?_, ?_, ?_, by decide⟩
      · intro i hi0 hil
        simp [initHeap] at hil
        omega
      · intro i hil c hc
        simp only [initHeap, List.length_cons, List.length_nil] at hil
        have : i = 0 := by omega
        subst this
        simp [initHeap, nodeAt, List.getD] at hc
      · intro i hil c hc
        simp only [initHeap, List.length_cons, List.length_nil] at hil
        have : i = 0 := by omega
        subst this
        simp [initHeap, nodeAt, List.getD] at hc
      · intro j hj0 hjl
        simp [initHeap] at hjl
        omega
    exact (parserLoop_inv ts [0] initHeap h₀ st₀ hinit
      (by intro i hi; simp at hi; subst hi; decide) hrun).1
  | error e => rw [hrun] at hok; cases hok
  | fatal => rw [hrun] at hok; cases hok

end XMLCSV

namespace XMLCSV

theorem joinSlash_nil : joinSlash [] = [] := rfl

theorem joinSlash_cons (a : List Char) (l : List (List Char)) :
    joinSlash (a :: l) = a ++ (if l = [] then [] else '/' :: joinSlash l) := by
  cases l with
  | nil => simp [joinSlash, List.intercalate]
  | cons b l' =>
    simp only [joinSlash, List.intercalate, List.intersperse, if_neg
      (List.cons_ne_nil b l')]
    simp

/-- In a parser heap, every node's `get_path` starts at the synthetic root
(named `root`) and ends at the node's own name; `heap.length` fuel (or any
larger amount) fully unrolls the parent chain. -/
theorem getPathAux_root (h : Heap) (inv : ParserInv h) :
    ∀ i, i < h.length → ∀ fuel, i < fuel →
      ∃ rest, getPathAux h fuel i = "root".data :: rest ∧
        (getPathAux h fuel i).getLast? = some (nodeAt h i).name := by
  intro i
  induction i using Nat.strong_induction_on with
  | _ i ih =>
    intro hi fuel hfuel
    cases fuel with
    | zero => omega
    | succ f =>
      by_cases h0 : i = 0
      · subst h0
        simp only [getPathAux, inv.root_parent, List.nil_append]
        exact ⟨[], by rw [inv.root_name], by rw [inv.root_name]; rfl⟩
      · obtain ⟨p, hp, hplt⟩ := inv.parent_lt i (Nat.pos_of_ne_zero h0) hi
        simp only [getPathAux, hp]
        obtain ⟨rest', hr, _⟩ := ih p hplt (by omega) f (by omega)
        refine ⟨rest' ++ [(nodeAt h i).name], ?_, ?_⟩
        · rw [hr]
          simp
        · rw [List.getLast?_concat]

theorem kmSet_keys {P : List Char → Prop} (km : Keymap) (k : List Char)
    (v : List (List Char)) (hkm : ∀ e ∈ km, P e.1) (hk : P k) :
    ∀ e ∈ kmSet km k v, P e.1 := by
  induction km with
  | nil => intro e he; simp [kmSet] at he
  | cons x rest ih =>
    intro e he
    by_cases hx : x.1 = k
    · rw [kmSet, if_pos hx] at he
      rcases List.mem_cons.1 he with rfl | he'
      · exact hk
      · exact hkm e (List.mem_cons_of_mem _ he')
    · rw [kmSet, if_neg hx] at he
      rcases List.mem_cons.1 he with rfl | he'
      · exact hkm e (List.mem_cons_self _ _)
      · exact ih (fun e' he'' => hkm e' (List.mem_cons_of_mem _ he'')) e he'

theorem csvLeafInsert_keys {P : List Char → Prop} (km : Keymap) (path d : List Char)
    (idx : Nat) (hkm : ∀ e ∈ km, P e.1) (hpath : P path) :
    ∀ e ∈ csvLeafInsert km path d idx, P e.1 := by
  intro e he
  unfold csvLeafInsert at he
  by_cases hs : (kmFind km path).isSome
  · rw [if_pos hs] at he
    exact kmSet_keys km path _ hkm hpath e he
  · rw [if_neg hs] at he
    refine kmSet_keys _ path _ ?_ hpath e he
    intro e' he'
    rcases List.mem_append.1 he' with h1 | h2
    · exact hkm e' h1
    · rcases List.mem_singleton.1 h2 with rfl
      exact hpath

/-- Every key present after a projector traversal either was present before
or satisfies any predicate that holds of all in-range `get_path` keys. -/
theorem csvFormat_keys_aux (h : Heap) {P : List Char → Prop}
    (hpath : ∀ i, i < h.length → P (joinSlash (getPath h i)))
    (hrange : ∀ i, i < h.length → ∀ c ∈ (nodeAt h i).children, c < h.length) :
    ∀ fuel i km idx, i < h.length → (∀ e ∈ km, P e.1) →
      ∀ e ∈ (recursive_csv_format h fuel i (km, idx)).1, P e.1 := by
  intro fuel
  induction fuel with
  | zero => intro i km idx _ hkm e he; exact hkm e he
  | succ f ihf =>
    intro i km idx hi hkm e he
    rw [recursive_csv_format] at he
    by_cases hleaf : (nodeAt h i).children.isEmpty
    · rw [if_pos hleaf] at he
      by_cases hcontrib : (nodeAt h i).data.length > 0 ∧ (nodeAt h i).name.length > 0
      · rw [if_pos hcontrib] at he
        exact csvLeafInsert_keys km _ _ idx hkm (hpath i hi) e he
      · rw [if_neg hcontrib] at he
        exact hkm e he
    · rw [if_neg hleaf] at he
      have aux : ∀ (cs : List Nat), (∀ c ∈ cs, c < h.length) →
          ∀ (acc : Keymap × Nat), (∀ e' ∈ acc.1, P e'.1) →
          ∀ e' ∈ (cs.foldl (fun acc c => recursive_csv_format h f c acc) acc).1, P e'.1 := by
        intro cs
        induction cs with
        | nil => intro _ acc hacc e' he'; exact hacc e' he'
        | cons c cs' ihc =>
          intro hcs acc hacc e' he'
          rw [List.foldl_cons] at he'
          refine ihc (fun c' hc' => hcs c' (List.mem_cons_of_mem _ hc'))
            (recursive_csv_format h f c acc) ?_ e' he'
          intro e'' he''
          obtain ⟨km', idx'⟩ := acc
          exact ihf c km' idx' (hcs c (List.mem_cons_self _ _)) hacc e'' he''
      exact aux (nodeAt h i).children
        (fun c hc => hrange i hi c hc) (km, idx) hkm e he

end XMLCSV

/-- Counterexample for C1: parsing `<a>hi</a>` gives a leaf `a` (non-empty
name and data) directly under the synthetic wrapper; `get_path` includes
the wrapper, so the column key is `root/a` — it starts with the wrapper
name `root` and is not the wrapper-excluded `a` the claim requires. -/
theorem claim_C1_counterexample :
    XMLCSV.parser [.openingTag "a".data, .text "hi".data, .closingTag "a".data] =
      .ok [⟨"root".data, [], Option.none, [1]⟩, ⟨"a".data, "hi".data, some 0, []⟩] ∧
    (XMLCSV.nodeAt [⟨"root".data, [], Option.none, [1]⟩,
        ⟨"a".data, "hi".data, some 0, []⟩] 1).children = [] ∧
    (XMLCSV.nodeAt [⟨"root".data, [], Option.none, [1]⟩,
        ⟨"a".data, "hi".data, some 0, []⟩] 1).name = "a".data ∧
    (XMLCSV.nodeAt [⟨"root".data, [], Option.none, [1]⟩,
        ⟨"a".data, "hi".data, some 0, []⟩] 1).data = "hi".data ∧
    XMLCSV.joinSlash (XMLCSV.getPath [⟨"root".data, [], Option.none, [1]⟩,
        ⟨"a".data, "hi".data, some 0, []⟩] 1) = "root/a".data ∧
    "root/a".data = "root".data ++ "/a".data ∧
    XMLCSV.joinSlash (XMLCSV.getPath [⟨"root".data, [], Option.none, [1]⟩,
        ⟨"a".data, "hi".data, some 0, []⟩] 1) ≠ "a".data := by
  refine ⟨by decide, by decide, by decide, by decide, by decide, by decide, by decide⟩

/-- C1 (amended): for every tree the Tree Parser produces, the column key
the Table Projector records for a leaf with non-empty name and data is the
`/`-join of the ancestor names from the synthetic root wrapper (named
`root`) down to the leaf — the wrapper is included, so every key starts
with `root`; accordingly every key in the projector's final map starts
with `root`. -/
theorem claim_C1_amended (ts : List XMLCSV.XMLTerm) (h : XMLCSV.Heap)
    (hok : XMLCSV.parser ts = .ok h) :
    (∀ i, i < h.length → (XMLCSV.nodeAt h i).children = [] →
      (XMLCSV.nodeAt h i).name ≠ [] → (XMLCSV.nodeAt h i).data ≠ [] →
      ∃ rest, XMLCSV.getPath h i = "root".data :: rest ∧
        (XMLCSV.getPath h i).getLast? = some (XMLCSV.nodeAt h i).name ∧
        ∃ tail, XMLCSV.joinSlash (XMLCSV.getPath h i) = "root".data ++ tail) ∧
    (∀ e ∈ (XMLCSV.csvFormatMap h).1, ∃ tail, e.1 = "root".data ++ tail) := by
  have inv := XMLCSV.parser_inv ts h hok
  have hstart : ∀ i, i < h.length →
      ∃ tail, XMLCSV.joinSlash (XMLCSV.getPath h i) = "root".data ++ tail := by
    intro i hi
    obtain ⟨rest, hr, _⟩ := XMLCSV.getPathAux_root h inv i hi h.length hi
    rw [XMLCSV.getPath, hr, XMLCSV.joinSlash_cons]
    exact ⟨_, rfl⟩
  constructor
  · intro i hi _ _ _
    obtain ⟨rest, hr, hl⟩ := XMLCSV.getPathAux_root h inv i hi h.length hi
    exact ⟨rest, hr, hl, hstart i hi⟩
  · intro e he
    refine @XMLCSV.csvFormat_keys_aux h (fun k => ∃ tail, k = "root".data ++ tail)
      hstart (fun i hi c hc => (inv.child_range i hi c hc).2)
      h.length 0 [] 0 inv.pos (by intro e' he'; simp at he') e he

/-- Witness for C1: on the parse of `<a>hi</a>`, the leaf at index 1 has key
`root/a`, starting at the wrapper name. -/
theorem claim_C1_witness :
    ∃ rest, XMLCSV.getPath [⟨"root".data, [], Option.none, [1]⟩,
        ⟨"a".data, "hi".data, some 0, []⟩] 1 = "root".data :: rest ∧
      (XMLCSV.getPath [⟨"root".data, [], Option.none, [1]⟩,
        ⟨"a".data, "hi".data, some 0, []⟩] 1).getLast? =
        some (XMLCSV.nodeAt [⟨"root".data, [], Option.none, [1]⟩,
          ⟨"a".data, "hi".data, some 0, []⟩] 1).name ∧
      ∃ tail, XMLCSV.joinSlash (XMLCSV.getPath [⟨"root".data, [], Option.none, [1]⟩,
        ⟨"a".data, "hi".data, some 0, []⟩] 1) = "root".data ++ tail :=
  (claim_C1_amended [.openingTag "a".data, .text "hi".data, .closingTag "a".data]
    [⟨"root".data, [], Option.none, [1]⟩, ⟨"a".data, "hi".data, some 0, []⟩]
    (by decide)).1 1 (by decide) (by decide) (by decide) (by decide)

namespace XMLCSV

theorem count_range_map (base n j : Nat) :
    List.count j ((List.range n).map (fun k => base + k)) =
      if base ≤ j ∧ j < base + n then 1 else 0 := by
  by_cases hmem : base ≤ j ∧ j < base + n
  · rw [if_pos hmem]
    apply List.count_eq_one_of_mem
    · exact List.Nodup.map (fun a b hab => by omega) (List.nodup_range n)
    · rw [List.mem_map]
      exact ⟨j - base, by rw [List.mem_range]; omega, by omega⟩
  · rw [if_neg hmem]
    apply List.count_eq_zero_of_not_mem
    rw [List.mem_map]
    rintro ⟨k, hk, hkeq⟩
    rw [List.mem_range] at hk
    omega

/-- Shape of the leaves the ingestor's column loop builds: one node per
key, each with parent back-reference `root2` (index 1) and no children. -/
theorem buildKeysAux_shape (row : List (List Char)) :
    ∀ (ks : List (List Char)) (ki ri : Nat) (ns : List XMLNode),
      buildKeysAux row ks ki ri = .ok ns →
      ns.length = ks.length ∧ ∀ nd ∈ ns, nd.parent = some 1 ∧ nd.children = [] := by
  intro ks
  induction ks with
  | nil =>
    intro ki ri ns hok
    cases hok
    exact ⟨rfl, by intro nd hnd; simp at hnd⟩
  | cons k ks' ih =>
    intro ki ri ns hok
    rw [buildKeysAux] at hok
    by_cases hki : row.length ≤ ki
    · rw [if_pos hki] at hok; cases hok
    · rw [if_neg hki] at hok
      cases hsub : buildKeysAux row ks' (ki + 1) ri with
      | error e => rw [hsub] at hok; cases hok
      | ok ns' =>
        rw [hsub] at hok
        cases hok
        obtain ⟨hlen, hshape⟩ := ih (ki + 1) ri ns' hsub
        refine ⟨by simp [hlen], ?_⟩
        intro nd hnd
        rcases List.mem_cons.1 hnd with rfl | hnd'
        · exact ⟨rfl, rfl⟩
        · exact hshape nd hnd'


theorem csvInv_children_bounded (h : Heap) (inv : CsvInv h) :
    ∀ nd ∈ h, ∀ c ∈ nd.children, c < h.length := by
  intro nd hnd c hc
  obtain ⟨k, hk, hkeq⟩ := List.mem_iff_getElem.1 hnd
  have hnode : nodeAt h k = nd := by
    simp [nodeAt, List.getD, List.getElem?_eq_getElem hk]
    exact hkeq
  rw [← hnode] at hc
  rcases Nat.lt_or_ge k 2 with h2 | h2
  · interval_cases k
    · rw [inv.node0] at hc
      simp at hc
      have := inv.len2
      omega
    · exact (inv.node1_children c hc).2.1
  · exact (inv.high_children k h2 hk c hc).2.1

/-- One row of the ingestor's loop preserves the invariant. -/
theorem csvRow_inv (h : Heap) (inv : CsvInv h) (km : List (List Char))
    (row : List (List Char)) (ri : Nat) (subs : List XMLNode)
    (hsub : buildKeysAux row km 0 ri = .ok subs) :
    CsvInv (setChildren (h ++ (⟨"element".data, [], some 1,
        (List.range km.length).map (fun k => h.length + 1 + k)⟩ : XMLNode) :: subs) 1
      ((nodeAt (h ++ (⟨"element".data, [], some 1,
        (List.range km.length).map (fun k => h.length + 1 + k)⟩ : XMLNode) :: subs) 1).children
        ++ [h.length])) := by
  obtain ⟨hslen, hshape⟩ := buildKeysAux_shape row km 0 ri subs hsub
  set K := km.length with hK
  set elemNode : XMLNode :=
    ⟨"element".data, [], some 1, (List.range K).map (fun k => h.length + 1 + k)⟩ with helem
  set h₁ : Heap := h ++ elemNode :: subs with hh₁
  set h₂ : Heap := setChildren h₁ 1 ((nodeAt h₁ 1).children ++ [h.length]) with hh₂
  have hlen₁ : h₁.length = h.length + 1 + K := by
    simp only [hh₁, List.length_append, List.length_cons, hslen]
    omega
  have hlen₂ : h₂.length = h.length + 1 + K := by rw [hh₂, length_setChildren, hlen₁]
  have h1lt : 1 < h.length := by have := inv.len2; omega
  have hat₁ : ∀ j, j < h.length → nodeAt h₁ j = nodeAt h j := by
    intro j hj
    exact nodeAt_append_lt _ _ _ hj
  have hA : ∀ j, j ≠ 1 → j < h.length → nodeAt h₂ j = nodeAt h j := by
    intro j hj hjl
    rw [hh₂, setChildren, nodeAt_set_ne _ _ _ _ (Ne.symm hj)]
    exact hat₁ j hjl
  have hB : nodeAt h₂ 1 =
      { nodeAt h 1 with children := (nodeAt h 1).children ++ [h.length] } := by
    rw [hh₂, setChildren, nodeAt_set_self _ _ _ (by omega), hat₁ 1 h1lt]
  have hC : nodeAt h₂ h.length = elemNode := by
    rw [hh₂, setChildren, nodeAt_set_ne _ _ _ _ (by omega), hh₁,
      nodeAt_append_ge _ _ _ (le_refl _), Nat.sub_self]
    rfl
  have hD : ∀ k, k < subs.length → nodeAt h₂ (h.length + 1 + k) = nodeAt subs k := by
    intro k hk
    rw [hh₂, setChildren, nodeAt_set_ne _ _ _ _ (by omega), hh₁,
      nodeAt_append_ge _ _ _ (by omega)]
    have : h.length + 1 + k - h.length = k + 1 := by omega
    rw [this]
    simp [nodeAt, List.getD]
  have hDmem : ∀ k, k < subs.length → nodeAt subs k ∈ subs := by
    intro k hk
    simp [nodeAt, List.getD, List.getElem?_eq_getElem hk]
  have hcount : ∀ j, containerCount h₂ j =
      containerCount h j + List.count j ((List.range K).map (fun k => h.length + 1 + k))
        + List.count j [h.length] := by
    intro j
    have hsubs0 : containerCount subs j = 0 := by
      apply containerCount_eq_zero
      intro nd hnd
      rw [(hshape nd hnd).2]
      simp
    have hc1 : containerCount h₁ j = containerCount h j
        + List.count j ((List.range K).map (fun k => h.length + 1 + k)) := by
      rw [hh₁, containerCount_append]
      simp only [containerCount, hsubs0, helem]
      omega
    have hset := containerCount_set h₁ 1
      { nodeAt h₁ 1 with children := (nodeAt h₁ 1).children ++ [h.length] } j (by omega)
    have hch : ({ nodeAt h₁ 1 with
        children := (nodeAt h₁ 1).children ++ [h.length] } : XMLNode).children =
      (nodeAt h₁ 1).children ++ [h.length] := rfl
    rw [hch, List.count_append] at hset
    rw [hh₂, setChildren]
    omega
  have hbound : ∀ j, h.length ≤ j → containerCount h j = 0 := by
    intro j hj
    apply containerCount_eq_zero
    intro nd hnd hmem
    have := csvInv_children_bounded h inv nd hnd j hmem
    omega
  refine ⟨by omega, ?_, ?_, ?_, ?_, ?_, ?_⟩
  · rw [hA 0 (by omega) (by omega)]
    exact inv.node0
  · rw [hB]
    exact inv.node1_parent
  · intro c hc
    rw [hB] at hc
    simp only [List.mem_append, List.mem_singleton] at hc
    rcases hc with hc | rfl
    · obtain ⟨hc2, hcl, hcp⟩ := inv.node1_children c hc
      refine ⟨hc2, by omega, ?_⟩
      rw [hA c (by omega) hcl]
      exact hcp
    · exact ⟨by omega, by omega, by rw [hC]⟩
  · intro i hi2 hil c hc
    rw [hlen₂] at hil
    rcases Nat.lt_or_ge i h.length with hih | hih
    · rw [hA i (by omega) hih] at hc
      obtain ⟨hc2, hcl, hcp, hcc⟩ := inv.high_children i hi2 hih c hc
      exact ⟨hc2, by omega, by rw [hA c (by omega) hcl]; exact hcp,
        by rw [hA c (by omega) hcl]; exact hcc⟩
    · by_cases hie : i = h.length
      · subst hie
        rw [hC] at hc
        simp only [helem] at hc
        rw [List.mem_map] at hc
        obtain ⟨k, hk, rfl⟩ := hc
        rw [List.mem_range] at hk
        have hk' : k < subs.length := by omega
        refine ⟨by omega, by omega, ?_, ?_⟩
        · rw [hD k hk']
          exact (hshape _ (hDmem k hk')).1
        · rw [hD k hk']
          exact (hshape _ (hDmem k hk')).2
      · have hk' : i - h.length - 1 < subs.length := by omega
        have hieq : i = h.length + 1 + (i - h.length - 1) := by omega
        rw [hieq, hD _ hk'] at hc
        rw [(hshape _ (hDmem _ hk')).2] at hc
        simp at hc
  · intro j hj0 hjl
    rw [hlen₂] at hjl
    rw [hcount j, count_range_map]
    rcases Nat.lt_or_ge j h.length with hjh | hjh
    · rw [inv.once j hj0 hjh, if_neg (by omega),
        count_single_of_ne (by omega : h.length ≠ j)]
    · by_cases hje : j = h.length
      · subst hje
        rw [hbound _ (le_refl _), if_neg (by omega)]
        simp [List.count_singleton']
      · rw [hbound _ hjh, if_pos (by omega),
          count_single_of_ne (by omega : h.length ≠ j)]
  · rw [hcount 0, inv.count0, count_range_map, if_neg (by omega),
      count_single_of_ne (by omega : h.length ≠ 0)]

/-- The ingestor's row loop preserves the invariant. -/
theorem csvBuildRows_inv (km : List (List Char)) :
    ∀ (rows : List (List (List Char))) (ri : Nat) (h h' : Heap),
      CsvInv h → csvBuildRows km rows ri h = .ok h' → CsvInv h' := by
  intro rows
  induction rows with
  | nil =>
    intro ri h h' hinv hok
    cases hok
    exact hinv
  | cons row rest ih =>
    intro ri h h' hinv hok
    rw [csvBuildRows] at hok
    cases hsub : buildKeysAux row km 0 ri with
    | error e => rw [hsub] at hok; cases hok
    | ok subs =>
      rw [hsub] at hok
      exact ih (ri + 1) _ h' (csvRow_inv h hinv km row ri subs hsub) hok

/-- The invariant holds for every heap the Table Ingestor returns. -/
theorem csv_parse_inv (s : List Char) (h : Heap)
    (hok : csv_parse s = .ok h) : CsvInv h := by
  unfold csv_parse at hok
  by_cases hl : (splitChar '\n' (trim s)).length ≤ 1
  · rw [if_pos hl] at hok; cases hok
  · rw [if_neg hl] at hok
    refine csvBuildRows_inv _ _ 0 initCsvHeap h ?_ hok
    refine ⟨by decide, by decide, by decide, ?_, ?_, ?_, by decide⟩
    · intro c hc
      simp [initCsvHeap, nodeAt, List.getD] at hc
    · intro i hi2 hil c hc
      simp only [initCsvHeap, List.length_cons, List.length_nil] at hil
      omega
    · intro j hj0 hjl
      simp only [initCsvHeap, List.length_cons, List.length_nil] at hjl
      have : j = 1 := by omega
      subst this
      decide

end XMLCSV

/-- Counterexample for C2: ingesting `a\nb` yields an "element" node (index
2) whose children list contains the leaf (index 3), yet the leaf's parent
back-reference is `root2` (index 1), not the element that contains it. -/
theorem claim_C2_counterexample :
    XMLCSV.csv_parse "a\nb".data =
      .ok [⟨"root".data, [], Option.none, [1]⟩, ⟨"root2".data, [], some 0, [2]⟩,
           ⟨"element".data, [], some 1, [3]⟩, ⟨"a".data, "b".data, some 1, []⟩] ∧
    (3 : Nat) ∈ (XMLCSV.nodeAt [⟨"root".data, [], Option.none, [1]⟩,
        ⟨"root2".data, [], some 0, [2]⟩, ⟨"element".data, [], some 1, [3]⟩,
        ⟨"a".data, "b".data, some 1, []⟩] 2).children ∧
    (XMLCSV.nodeAt [⟨"root".data, [], Option.none, [1]⟩,
        ⟨"root2".data, [], some 0, [2]⟩, ⟨"element".data, [], some 1, [3]⟩,
        ⟨"a".data, "b".data, some 1, []⟩] 3).parent = some 1 ∧
    (1 : Nat) ≠ 2 := by
  refine ⟨by decide, by decide, by decide, by decide⟩

/-- C2 (amended): in every Tree-Parser tree, each non-root node sits in
exactly one children list and its parent back-reference is exactly its
container.  In every Table-Ingestor tree, each non-root node still sits in
exactly one children list, and the back-references of the inner wrapper and
of the "element" nodes match their containers, but every node at depth ≥ 2
(in particular each element's leaf children) carries the back-reference
`root2` (index 1) rather than its containing element. -/
theorem claim_C2_amended :
    (∀ (ts : List XMLCSV.XMLTerm) (h : XMLCSV.Heap), XMLCSV.parser ts = .ok h →
      ∀ j, 0 < j → j < h.length →
        XMLCSV.containerCount h j = 1 ∧
        ∀ i, i < h.length → j ∈ (XMLCSV.nodeAt h i).children →
          (XMLCSV.nodeAt h j).parent = some i) ∧
    (∀ (s : List Char) (h : XMLCSV.Heap), XMLCSV.csv_parse s = .ok h →
      (∀ j, 0 < j → j < h.length → XMLCSV.containerCount h j = 1) ∧
      (∀ c ∈ (XMLCSV.nodeAt h 0).children, (XMLCSV.nodeAt h c).parent = some 0) ∧
      (∀ c ∈ (XMLCSV.nodeAt h 1).children, (XMLCSV.nodeAt h c).parent = some 1) ∧
      (∀ i, 2 ≤ i → i < h.length → ∀ c ∈ (XMLCSV.nodeAt h i).children,
        (XMLCSV.nodeAt h c).parent = some 1)) := by
  constructor
  · intro ts h hok j hj0 hjl
    have inv := XMLCSV.parser_inv ts h hok
    exact ⟨inv.once j hj0 hjl, fun i hil hmem => inv.parent_child i hil j hmem⟩
  · intro s h hok
    have inv := XMLCSV.csv_parse_inv s h hok
    refine ⟨inv.once, ?_, ?_, ?_⟩
    · intro c hc
      rw [inv.node0] at hc
      simp at hc
      subst hc
      exact inv.node1_parent
    · intro c hc
      exact (inv.node1_children c hc).2.2
    · intro i hi2 hil c hc
      exact (inv.high_children i hi2 hil c hc).2.2.1

/-- Witness for C2: the parser tree of `<a>` and the ingestor tree of
`a\nb`, with the invariants evaluated at their concrete nodes. -/
theorem claim_C2_witness :
    (XMLCSV.containerCount [⟨"root".data, [], Option.none, [1]⟩,
        ⟨"a".data, [], some 0, []⟩] 1 = 1 ∧
      ∀ i, i < ([⟨"root".data, [], Option.none, [1]⟩,
          ⟨"a".data, [], some 0, []⟩] : XMLCSV.Heap).length →
        (1 : Nat) ∈ (XMLCSV.nodeAt [⟨"root".data, [], Option.none, [1]⟩,
          ⟨"a".data, [], some 0, []⟩] i).children →
        (XMLCSV.nodeAt [⟨"root".data, [], Option.none, [1]⟩,
          ⟨"a".data, [], some 0, []⟩] 1).parent = some i) ∧
    ((∀ j, 0 < j → j < ([⟨"root".data, [], Option.none, [1]⟩,
          ⟨"root2".data, [], some 0, [2]⟩, ⟨"element".data, [], some 1, [3]⟩,
          ⟨"a".data, "b".data, some 1, []⟩] : XMLCSV.Heap).length →
        XMLCSV.containerCount [⟨"root".data, [], Option.none, [1]⟩,
          ⟨"root2".data, [], some 0, [2]⟩, ⟨"element".data, [], some 1, [3]⟩,
          ⟨"a".data, "b".data, some 1, []⟩] j = 1) ∧
      (∀ c ∈ (XMLCSV.nodeAt [⟨"root".data, [], Option.none, [1]⟩,
          ⟨"root2".data, [], some 0, [2]⟩, ⟨"element".data, [], some 1, [3]⟩,
          ⟨"a".data, "b".data, some 1, []⟩] 0).children,
        (XMLCSV.nodeAt [⟨"root".data, [], Option.none, [1]⟩,
          ⟨"root2".data, [], some 0, [2]⟩, ⟨"element".data, [], some 1, [3]⟩,
          ⟨"a".data, "b".data, some 1, []⟩] c).parent = some 0) ∧
      (∀ c ∈ (XMLCSV.nodeAt [⟨"root".data, [], Option.none, [1]⟩,
          ⟨"root2".data, [], some 0, [2]⟩, ⟨"element".data, [], some 1, [3]⟩,
          ⟨"a".data, "b".data, some 1, []⟩] 1).children,
        (XMLCSV.nodeAt [⟨"root".data, [], Option.none, [1]⟩,
          ⟨"root2".data, [], some 0, [2]⟩, ⟨"element".data, [], some 1, [3]⟩,
          ⟨"a".data, "b".data, some 1, []⟩] c).parent = some 1) ∧
      (∀ i, 2 ≤ i → i < ([⟨"root".data, [], Option.none, [1]⟩,
          ⟨"root2".data, [], some 0, [2]⟩, ⟨"element".data, [], some 1, [3]⟩,
          ⟨"a".data, "b".data, some 1, []⟩] : XMLCSV.Heap).length →
        ∀ c ∈ (XMLCSV.nodeAt [⟨"root".data, [], Option.none, [1]⟩,
          ⟨"root2".data, [], some 0, [2]⟩, ⟨"element".data, [], some 1, [3]⟩,
          ⟨"a".data, "b".data, some 1, []⟩] i).children,
        (XMLCSV.nodeAt [⟨"root".data, [], Option.none, [1]⟩,
          ⟨"root2".data, [], some 0, [2]⟩, ⟨"element".data, [], some 1, [3]⟩,
          ⟨"a".data, "b".data, some 1, []⟩] c).parent = some 1)) :=
  ⟨claim_C2_amended.1 [.openingTag "a".data]
      [⟨"root".data, [], Option.none, [1]⟩, ⟨"a".data, [], some 0, []⟩]
      (by decide) 1 (by decide) (by decide),
   claim_C2_amended.2 "a\nb".data
      [⟨"root".data, [], Option.none, [1]⟩, ⟨"root2".data, [], some 0, [2]⟩,
       ⟨"element".data, [], some 1, [3]⟩, ⟨"a".data, "b".data, some 1, []⟩]
      (by decide)⟩

namespace XMLCSV

theorem allWS_dropWhile_nil {w : List Char} (hw : ∀ c ∈ w, isWS c = true) :
    List.dropWhile isWS w = [] :=
  List.dropWhile_eq_nil_iff.2 hw

theorem trim_eq_self_of {s : List Char}
    (h1 : List.dropWhile isWS s = s)
    (h2 : List.dropWhile isWS s.reverse = s.reverse) : trim s = s := by
  rw [trim, h1, h2, List.reverse_reverse]

theorem dropWhile_eq_self_of_trim {s : List Char} (h : trim s = s) :
    List.dropWhile isWS s = s := by
  have hsuf1 : List.dropWhile isWS s <:+ s := List.dropWhile_suffix isWS
  have hlen1 : (List.dropWhile isWS s).length ≤ s.length := hsuf1.length_le
  have hsuf2 : List.dropWhile isWS (List.dropWhile isWS s).reverse <:+
      (List.dropWhile isWS s).reverse := List.dropWhile_suffix isWS
  have hlen2 := hsuf2.length_le
  have hlen3 : (trim s).length ≤ (List.dropWhile isWS s).length := by
    rw [trim]
    simp only [List.length_reverse]
    simpa using hlen2
  rw [h] at hlen3
  exact hsuf1.eq_of_length (le_antisymm hlen1 hlen3)

theorem dropWhile_reverse_eq_self_of_trim {s : List Char} (h : trim s = s) :
    List.dropWhile isWS s.reverse = s.reverse := by
  have h1 := dropWhile_eq_self_of_trim h
  have : trim s = (List.dropWhile isWS s.reverse).reverse := by
    rw [trim, h1]
  rw [h] at this
  have := congrArg List.reverse this
  rw [List.reverse_reverse] at this
  exact this.symm

theorem head_not_ws {s : List Char} (h : trim s = s) :
    ∀ c, s.head? = some c → isWS c = false := by
  intro c hc
  have h1 := dropWhile_eq_self_of_trim h
  cases s with
  | nil => cases hc
  | cons a l =>
    simp only [List.head?_cons, Option.some.injEq] at hc
    have ha : isWS a = false := by
      rw [List.dropWhile_cons] at h1
      by_cases hws : isWS a = true
      · rw [if_pos hws] at h1
        have hle := (List.dropWhile_suffix (p := isWS) (l := l)).length_le
        rw [h1] at hle
        simp at hle
      · simpa using hws
    rw [← hc]
    exact ha

theorem trim_append_ws {u w : List Char} (hw : ∀ c ∈ w, isWS c = true) :
    trim (u ++ w) = trim u := by
  have hwrev : ∀ c ∈ w.reverse, isWS c = true := by
    intro c hc; exact hw c (List.mem_reverse.1 hc)
  rw [trim, trim, List.dropWhile_append]
  by_cases hu : (List.dropWhile isWS u).isEmpty
  · rw [if_pos hu, allWS_dropWhile_nil hw]
    rw [List.isEmpty_iff] at hu
    rw [hu]
  · rw [if_neg hu, List.reverse_append, List.dropWhile_append,
      if_pos (by rw [List.isEmpty_iff]; exact allWS_dropWhile_nil hwrev)]

theorem trim_ws_append {u w : List Char} (hw : ∀ c ∈ w, isWS c = true) :
    trim (w ++ u) = trim u := by
  rw [trim, trim, List.dropWhile_append,
    if_pos (by rw [List.isEmpty_iff]; exact allWS_dropWhile_nil hw)]

theorem trim_concat_trimmed {a b : List Char} (ha : trim a = a) (hane : a ≠ [])
    (hb : trim b = b) : trim (a ++ b) = a ++ b := by
  apply trim_eq_self_of
  · rw [List.dropWhile_append, if_neg]
    · rw [dropWhile_eq_self_of_trim ha]
    · rw [dropWhile_eq_self_of_trim ha, List.isEmpty_iff]
      exact hane
  · rw [List.reverse_append]
    by_cases hbe : b = []
    · subst hbe
      simp only [List.reverse_nil, List.nil_append]
      exact dropWhile_reverse_eq_self_of_trim ha
    · rw [List.dropWhile_append, if_neg]
      · rw [dropWhile_reverse_eq_self_of_trim hb]
      · rw [dropWhile_reverse_eq_self_of_trim hb, List.isEmpty_iff]
        simpa using hbe

theorem pushTerm_text_ws {u w : List Char} (hw : ∀ c ∈ w, isWS c = true) :
    pushTerm (.text (u ++ w)) = pushTerm (.text u) := by
  simp only [pushTerm, trim_append_ws hw]

theorem pushTerm_text_of_trimmed {u : List Char} (h : trim u = u) (hne : u ≠ []) :
    pushTerm (.text u) = [.text u] := by
  simp only [pushTerm, h]
  rw [if_pos]
  simp [List.length_pos, hne]

theorem pushTerm_text_of_ws {u : List Char} (h : trim u = []) :
    pushTerm (.text u) = [] := by
  simp [pushTerm, h]

end XMLCSV

namespace XMLCSV

theorem elIdxs_bounds (F : List Item) :
    ∀ base x, x ∈ elIdxs base F → base ≤ x ∧ x < base + sizeForest F := by
  induction F with
  | nil => intro base x hx; simp [elIdxs] at hx
  | cons it rest ih =>
    intro base x hx
    cases it with
    | txt s =>
      rw [elIdxs] at hx
      have := ih base x hx
      simp only [sizeForest, sizeItem]
      omega
    | el n content =>
      rw [elIdxs] at hx
      rcases List.mem_cons.1 hx with rfl | hx'
      · simp only [sizeForest, sizeItem]
        omega
      · have := ih (base + 1 + sizeForest content) x hx'
        simp only [sizeForest, sizeItem]
        omega

theorem nodeAt_appendData_self (h : Heap) (i : Nat) (s : List Char) (hi : i < h.length) :
    nodeAt (appendData h i s) i = { nodeAt h i with data := (nodeAt h i).data ++ s } := by
  rw [appendData, nodeAt_set_self _ _ _ hi]

theorem nodeAt_appendData_ne (h : Heap) (i : Nat) (s : List Char) (j : Nat) (hj : j ≠ i) :
    nodeAt (appendData h i s) j = nodeAt h j := by
  rw [appendData, nodeAt_set_ne _ _ _ _ (Ne.symm hj)]

/-- Characterization of the heap the parser builds from a balanced forest:
the heap grows by one node per element, nodes other than `top` keep their
values, `top` gains the forest's text as data and the new element indices
as children, and every newly allocated node's children point strictly
upward within the new heap. -/
theorem buildForest_facts : ∀ (N : Nat) (F : List Item) (h : Heap) (top : Nat),
    sizeOf F ≤ N → top < h.length →
    (buildForest h top F).length = h.length + sizeForest F ∧
    (∀ j, j ≠ top → nodeAt (buildForest h top F) j =
      (if j < h.length then nodeAt h j else nodeAt (buildForest h top F) j)) ∧
    (nodeAt (buildForest h top F) top).name = (nodeAt h top).name ∧
    (nodeAt (buildForest h top F) top).parent = (nodeAt h top).parent ∧
    (nodeAt (buildForest h top F) top).data =
      (nodeAt h top).data ++ forestData F ∧
    (nodeAt (buildForest h top F) top).children =
      (nodeAt h top).children ++ elIdxs h.length F ∧
    (∀ j, h.length ≤ j → j < (buildForest h top F).length →
      ∀ c ∈ (nodeAt (buildForest h top F) j).children,
        j < c ∧ c < (buildForest h top F).length) := by
  intro N
  induction N with
  | zero =>
    intro F h top hF _
    exact absurd hF (by cases F <;> simp)
  | succ N ih =>
    intro F h top hF htop
    cases F with
    | nil =>
      refine ⟨by rw [buildForest]; simp [sizeForest],
        by intro j _; rw [buildForest]; split <;> rfl,
        by rw [buildForest], by rw [buildForest],
        by rw [buildForest]; simp [forestData],
        by rw [buildForest]; simp [elIdxs], ?_⟩
      intro j hj hjl
      rw [buildForest] at hjl
      omega
    | cons it rest =>
      cases it with
      | txt s =>
        have hsz : sizeOf rest ≤ N := by
          have : sizeOf (Item.txt s) > 0 := by simp
          simp only [List.cons.sizeOf_spec] at hF
          omega
        have hlen' : (appendData h top s).length = h.length := length_appendData h top s
        obtain ⟨ha, hb, hc1, hc2, hc3, hc4, he⟩ :=
          ih rest (appendData h top s) top hsz (by omega)
        have htopd := nodeAt_appendData_self h top s htop
        rw [buildForest]
        refine ⟨by rw [ha, hlen']; simp [sizeForest, sizeItem], ?_, ?_, ?_, ?_, ?_, ?_⟩
        · intro j hj
          have := hb j hj
          rw [hlen'] at this
          by_cases hjl : j < h.length
          · rw [if_pos hjl] at this ⊢
            rw [this, nodeAt_appendData_ne h top s j hj]
          · rw [if_neg hjl] at this ⊢
        · rw [hc1, htopd]
        · rw [hc2, htopd]
        · rw [hc3, htopd]
          simp [forestData, List.append_assoc]
        · rw [hc4, htopd, hlen']
          simp [elIdxs]
        · intro j hj hjl
          rw [← hlen'] at hj
          exact he j hj hjl
      | el n content =>
        have hszc : sizeOf content ≤ N := by
          simp only [List.cons.sizeOf_spec, Item.el.sizeOf_spec] at hF
          omega
        have hszr : sizeOf rest ≤ N := by
          have : sizeOf (Item.el n content) > 0 := by simp
          simp only [List.cons.sizeOf_spec] at hF
          omega
        set newNode : XMLNode := ⟨n, [], some top, []⟩ with hnew
        set h₁ : Heap := h ++ [newNode] with hh₁
        set h₂ : Heap := setChildren h₁ top ((nodeAt h₁ top).children ++ [h.length]) with hh₂
        have hlen₁ : h₁.length = h.length + 1 := by simp [hh₁]
        have hlen₂ : h₂.length = h.length + 1 := by rw [hh₂, length_setChildren, hlen₁]
        have hat₁ : nodeAt h₁ top = nodeAt h top := nodeAt_append_lt _ _ _ htop
        have hB : nodeAt h₂ top =
            { nodeAt h top with children := (nodeAt h top).children ++ [h.length] } := by
          rw [hh₂, setChildren, nodeAt_set_self _ _ _ (by omega), hat₁]
        have hA : ∀ j, j ≠ top → j < h.length → nodeAt h₂ j = nodeAt h j := by
          intro j hj hjl
          rw [hh₂, setChildren, nodeAt_set_ne _ _ _ _ (Ne.symm hj)]
          exact nodeAt_append_lt _ _ _ hjl
        have hC : nodeAt h₂ h.length = newNode := by
          rw [hh₂, setChildren, nodeAt_set_ne _ _ _ _ (by omega), hh₁,
            nodeAt_append_ge _ _ _ (le_refl _), Nat.sub_self]
          rfl
        obtain ⟨ia, ib, ic1, ic2, ic3, ic4, ie⟩ :=
          ih content h₂ h.length hszc (by omega)
        set inner : Heap := buildForest h₂ h.length content with hinner
        have hlenI : inner.length = h.length + 1 + sizeForest content := by
          rw [hinner, ia, hlen₂]
        obtain ⟨ra, rb, rc1, rc2, rc3, rc4, re⟩ :=
          ih rest inner top hszr (by omega)
        have hfinal : buildForest h top (Item.el n content :: rest) =
            buildForest inner top rest := by
          rw [buildForest, buildItemHeap]
        rw [hfinal]
        have hInTop : nodeAt inner top = nodeAt h₂ top := by
          have := ib top (by omega)
          rw [if_pos (by omega)] at this
          exact this
        refine ⟨?_, ?_, ?_, ?_, ?_, ?_, ?_⟩
        · rw [ra, hlenI]
          simp [sizeForest, sizeItem]
          omega
        · intro j hj
          by_cases hjl : j < h.length
          · rw [if_pos hjl]
            have h1 := rb j hj
            rw [if_pos (by omega)] at h1
            have h2 := ib j (by omega)
            rw [if_pos (by omega)] at h2
            rw [h1, h2]
            exact hA j hj hjl
          · rw [if_neg hjl]
        · rw [rc1, hInTop, hB]
        · rw [rc2, hInTop, hB]
        · rw [rc3, hInTop, hB]
          simp [forestData]
        · rw [rc4, hInTop, hB]
          simp only [elIdxs, hlenI]
          rw [List.append_assoc]
          rfl
        · intro j hj hjl
          by_cases hjI : inner.length ≤ j
          · exact re j hjI hjl
          · have hjI' : j < inner.length := by omega
            have hjtop : j ≠ top := by omega
            have hfr := rb j hjtop
            rw [if_pos hjI'] at hfr
            rw [hfr]
            by_cases hje : j = h.length
            · subst hje
              have hch : (nodeAt inner h.length).children = elIdxs h₂.length content := by
                rw [ic4, hC]
                simp [hnew]
              rw [hch]
              intro c hc
              have hbd := elIdxs_bounds content h₂.length c hc
              have hra := ra
              constructor
              · omega
              · omega
            · have hj2 : h₂.length ≤ j := by omega
              intro c hc
              have hec := ie j hj2 hjI' c hc
              have hra := ra
              exact ⟨hec.1, by omega⟩

end XMLCSV

namespace XMLCSV

/-- Running the parser loop over the balanced term span of a forest is
exactly `buildForest`: every closing tag matches, nothing fails, and the
stack returns to its entry shape. -/
theorem parserLoop_flatten : ∀ (N : Nat) (F : List Item) (rest : List XMLTerm)
    (h : Heap) (top : Nat) (st : List Nat),
    sizeOf F ≤ N → top < h.length →
    parserLoop (flattenForest F ++ rest) (top :: st) h =
      parserLoop rest (top :: st) (buildForest h top F) := by
  intro N
  induction N with
  | zero =>
    intro F rest h top st hF _
    exact absurd hF (by cases F <;> simp)
  | succ N ih =>
    intro F rest h top st hF htop
    cases F with
    | nil =>
      rw [buildForest, flattenForest, List.nil_append]
    | cons it rest' =>
      cases it with
      | txt s =>
        have hsz : sizeOf rest' ≤ N := by
          have : sizeOf (Item.txt s) > 0 := by simp
          simp only [List.cons.sizeOf_spec] at hF
          omega
        rw [flattenForest, flattenItem, buildForest]
        simp only [List.cons_append, List.nil_append, parserLoop]
        exact ih rest' rest (appendData h top s) top st hsz
          (by rw [length_appendData]; exact htop)
      | el n content =>
        have hszc : sizeOf content ≤ N := by
          simp only [List.cons.sizeOf_spec, Item.el.sizeOf_spec] at hF
          omega
        have hszr : sizeOf rest' ≤ N := by
          have : sizeOf (Item.el n content) > 0 := by simp
          simp only [List.cons.sizeOf_spec] at hF
          omega
        rw [flattenForest, flattenItem, buildForest, buildItemHeap, List.append_assoc]
        set newNode : XMLNode := ⟨n, [], some top, []⟩ with hnew
        set h₂ : Heap := setChildren (h ++ [newNode]) top
          ((nodeAt (h ++ [newNode]) top).children ++ [h.length]) with hh₂
        have hlen₂ : h₂.length = h.length + 1 := by
          rw [hh₂, length_setChildren]
          simp
        set inner : Heap := buildForest h₂ h.length content with hinner
        have hname : (nodeAt inner h.length).name = n := by
          have hfacts := buildForest_facts N content h₂ h.length hszc (by omega)
          rw [hinner, hfacts.2.2.1]
          have : nodeAt h₂ h.length = newNode := by
            rw [hh₂, setChildren, nodeAt_set_ne _ _ _ _ (by omega),
              nodeAt_append_ge _ _ _ (le_refl _), Nat.sub_self]
            rfl
          rw [this]
        have hinnerlen : inner.length = h₂.length + sizeForest content := by
          rw [hinner, (buildForest_facts N content h₂ h.length hszc (by omega)).1]
        have step1 : parserLoop ((XMLTerm.openingTag n ::
            (flattenForest content ++ [XMLTerm.closingTag n])) ++
              (flattenForest rest' ++ rest)) (top :: st) h =
            parserLoop ((flattenForest content ++ [XMLTerm.closingTag n]) ++
              (flattenForest rest' ++ rest)) (h.length :: top :: st) h₂ := by
          simp only [List.cons_append, parserLoop]
          simp only [hh₂, hnew]
          rfl
        rw [step1, List.append_assoc, ih content _ h₂ h.length (top :: st) hszc (by omega)]
        have step2 : parserLoop ([XMLTerm.closingTag n] ++
            (flattenForest rest' ++ rest)) (h.length :: top :: st) inner =
            parserLoop (flattenForest rest' ++ rest) (top :: st) inner := by
          simp only [List.cons_append, List.nil_append, parserLoop, hname, if_pos]
          rfl
        rw [← hinner, step2, ih rest' rest inner top st hszr (by omega)]

end XMLCSV

namespace XMLCSV

/-- Lemma that `toTree` only looks at the nodes of the subtree; two heaps agreeing on
an upward-closed index window give the same view. -/
theorem toTree_congr_on (hA hB : Heap) (lo B : Nat)
    (hagree : ∀ j, lo ≤ j → j < B → nodeAt hA j = nodeAt hB j)
    (hloc : ∀ j, lo ≤ j → j < B → ∀ c ∈ (nodeAt hA j).children, j < c ∧ c < B) :
    ∀ fuel i, lo ≤ i → i < B → toTree hA fuel i = toTree hB fuel i := by
  intro fuel
  induction fuel with
  | zero =>
    intro i hlo hB'
    rw [toTree, toTree, hagree i hlo hB']
  | succ f ihf =>
    intro i hlo hB'
    rw [toTree, toTree, hagree i hlo hB']
    have hch : ∀ c ∈ (nodeAt hB i).children, toTree hA f c = toTree hB f c := by
      intro c hc
      rw [← hagree i hlo hB'] at hc
      obtain ⟨h1, h2⟩ := hloc i hlo hB' c hc
      exact ihf c (by omega) h2
    rw [List.map_congr_left hch]

/-- The element subtrees reconstructed by the parser from a balanced forest
are exactly the forest's element trees (text runs merged into data). -/
theorem buildForest_toTree : ∀ (N : Nat) (F : List Item) (h : Heap) (top fuel : Nat),
    sizeOf F ≤ N → top < h.length → sizeForest F ≤ fuel →
    (elIdxs h.length F).map (toTree (buildForest h top F) fuel) = elemTrees F := by
  intro N
  induction N with
  | zero =>
    intro F h top fuel hF _ _
    exact absurd hF (by cases F <;> simp)
  | succ N ih =>
    intro F h top fuel hF htop hfuel
    cases F with
    | nil => rw [elIdxs, elemTrees]; rfl
    | cons it rest =>
      cases it with
      | txt s =>
        have hsz : sizeOf rest ≤ N := by
          have : sizeOf (Item.txt s) > 0 := by simp
          simp only [List.cons.sizeOf_spec] at hF
          omega
        have hfuel' : sizeForest rest ≤ fuel := by
          simp only [sizeForest, sizeItem] at hfuel
          omega
        rw [elIdxs, elemTrees, buildForest]
        have : h.length = (appendData h top s).length := (length_appendData h top s).symm
        rw [this]
        exact ih rest (appendData h top s) top fuel hsz
          (by rw [← this]; exact htop) hfuel'
      | el n content =>
        have hszc : sizeOf content ≤ N := by
          simp only [List.cons.sizeOf_spec, Item.el.sizeOf_spec] at hF
          omega
        have hszr : sizeOf rest ≤ N := by
          have : sizeOf (Item.el n content) > 0 := by simp
          simp only [List.cons.sizeOf_spec] at hF
          omega
        have hfc : sizeForest content + 1 ≤ fuel := by
          simp only [sizeForest, sizeItem] at hfuel
          omega
        have hfr : sizeForest rest ≤ fuel := by
          simp only [sizeForest, sizeItem] at hfuel
          omega
        rw [elIdxs, elemTrees, buildForest, buildItemHeap]
        set newNode : XMLNode := ⟨n, [], some top, []⟩ with hnew
        set h₂ : Heap := setChildren (h ++ [newNode]) top
          ((nodeAt (h ++ [newNode]) top).children ++ [h.length]) with hh₂
        have hlen₂ : h₂.length = h.length + 1 := by
          rw [hh₂, length_setChildren]
          simp
        have hC : nodeAt h₂ h.length = newNode := by
          rw [hh₂, setChildren, nodeAt_set_ne _ _ _ _ (by omega),
            nodeAt_append_ge _ _ _ (le_refl _), Nat.sub_self]
          rfl
        set inner : Heap := buildForest h₂ h.length content with hinner
        obtain ⟨ia, ib, ic1, ic2, ic3, ic4, ie⟩ :=
          buildForest_facts N content h₂ h.length hszc (by omega)
        rw [← hinner] at ia ib ic1 ic2 ic3 ic4 ie
        set final : Heap := buildForest inner top rest with hfinal
        obtain ⟨ra, rb, rc1, rc2, rc3, rc4, re⟩ :=
          buildForest_facts N rest inner top hszr (by omega)
        rw [← hfinal] at ra rb rc1 rc2 rc3 rc4 re
        have hlenI : inner.length = h.length + 1 + sizeForest content := by
          rw [ia, hlen₂]
        have hchI : (nodeAt inner h.length).children = elIdxs h₂.length content := by
          rw [ic4, hC]
          simp [hnew]
        have hagree : ∀ j, h.length ≤ j → j < inner.length →
            nodeAt final j = nodeAt inner j := by
          intro j hj hjl
          have := rb j (by omega)
          rw [if_pos hjl] at this
          exact this
        have hloc : ∀ j, h.length ≤ j → j < inner.length →
            ∀ c ∈ (nodeAt final j).children, j < c ∧ c < inner.length := by
          intro j hj hjl c hc
          rw [hagree j hj hjl] at hc
          by_cases hje : j = h.length
          · subst hje
            rw [hchI] at hc
            have := elIdxs_bounds content h₂.length c hc
            omega
          · have := ie j (by omega) hjl c hc
            omega
        have hcongr : toTree final fuel h.length = toTree inner fuel h.length :=
          toTree_congr_on final inner h.length inner.length hagree hloc fuel h.length
            (le_refl _) (by omega)
        have hhead : toTree inner fuel h.length = itemTree (Item.el n content) := by
          obtain ⟨f, rfl⟩ : ∃ f, fuel = f + 1 := ⟨fuel - 1, by omega⟩
          rw [toTree, itemTree]
          have hdata : (nodeAt inner h.length).data = forestData content := by
            rw [ic3, hC, hnew]
            simp
          have hname : (nodeAt inner h.length).name = n := by
            rw [ic1, hC, hnew]
          rw [hname, hdata, hchI]
          have := ih content h₂ h.length f hszc (by omega) (by omega)
          rw [← hinner] at this
          rw [hlen₂] at this ⊢
          rw [this]
        rw [List.map_cons, hcongr, hhead]
        have htail : elIdxs (h.length + 1 + sizeForest content) rest =
            elIdxs inner.length rest := by rw [hlenI]
        rw [htail]
        have := ih rest inner top fuel hszr (by omega) hfr
        rw [← hfinal] at this
        rw [this]

end XMLCSV

namespace XMLCSV

/-- Parsing the term span of one element succeeds and reconstructs exactly
that element under the synthetic root. -/
theorem parse_flatten_item (n : List Char) (content : List Item) :
    parser (flattenItem (.el n content)) =
      .ok (buildForest initHeap 0 [Item.el n content]) ∧
    (buildForest initHeap 0 [Item.el n content]).length = 2 + sizeForest content ∧
    toTree (buildForest initHeap 0 [Item.el n content])
        (buildForest initHeap 0 [Item.el n content]).length 0 =
      .node "root".data [] [itemTree (.el n content)] := by
  have h0 : (0 : Nat) < initHeap.length := by decide
  have hts : flattenItem (Item.el n content) =
      flattenForest [Item.el n content] ++ [] := by
    rw [flattenForest, flattenForest]
    simp
  obtain ⟨fa, fb, fc1, fc2, fc3, fc4, fe⟩ :=
    buildForest_facts (sizeOf [Item.el n content]) [Item.el n content]
      initHeap 0 (le_refl _) h0
  set hp : Heap := buildForest initHeap 0 [Item.el n content] with hhp
  have hplen : hp.length = 2 + sizeForest content := by
    rw [hhp, fa]
    simp [initHeap, sizeForest, sizeItem]
    omega
  have hok : parser (flattenItem (.el n content)) = .ok hp := by
    rw [hts]
    unfold parser
    rw [parserLoop_flatten (sizeOf [Item.el n content]) [Item.el n content] []
      initHeap 0 [] (le_refl _) h0]
    rw [parserLoop, ← hhp]
  refine ⟨hok, hplen, ?_⟩
  have hname0 : (nodeAt hp 0).name = "root".data := by
    rw [hhp, fc1]
    rfl
  have hdata0 : (nodeAt hp 0).data = [] := by
    rw [hhp, fc3]
    have : forestData [Item.el n content] = [] := by
      rw [forestData, forestData]
    rw [this]
    rfl
  have hch0 : (nodeAt hp 0).children = [1] := by
    rw [hhp, fc4]
    have : elIdxs initHeap.length [Item.el n content] = [1] := by
      rw [elIdxs, elIdxs]
      rfl
    rw [this]
    rfl
  obtain ⟨f, hf⟩ : ∃ f, hp.length = f + 1 := ⟨hp.length - 1, by omega⟩
  rw [hf, toTree, hname0, hdata0, hch0]
  have hmap := buildForest_toTree (sizeOf [Item.el n content]) [Item.el n content]
    initHeap 0 f (le_refl _) h0 (by simp only [sizeForest, sizeItem]; omega)
  rw [← hhp] at hmap
  have : elIdxs initHeap.length [Item.el n content] = [1] := by
    rw [elIdxs, elIdxs]
    rfl
  rw [this] at hmap
  have helem : elemTrees [Item.el n content] = [itemTree (.el n content)] := by
    rw [elemTrees, elemTrees]
  rw [hmap, helem]

end XMLCSV

namespace XMLCSV

theorem renderForest_nil (d : Nat) : renderForest [] d = [] := rfl

theorem renderForest_cons (t : Tree) (ts : List Tree) (d : Nat) :
    renderForest (t :: ts) d = renderTree t d ++ renderForest ts d := by
  rw [renderForest, renderTree, renderForest, serializeForest]
  simp

theorem renderTree_eq (n dt : List Char) (cs : List Tree) (d : Nat) :
    renderTree (.node n dt cs) d =
      indentChars d ++ ('<' :: (n ++ ['>']))
      ++ (if dt.length > 0 then dt else [])
      ++ (if cs.length > 0 then ['\n'] else [])
      ++ renderForest cs (d + 1)
      ++ (if cs.length > 0 then indentChars d else [])
      ++ ('<' :: '/' :: (n ++ ['>']))
      ++ ['\n'] := by
  rw [renderTree, recursive_xml_reverse_parse, renderForest]
  by_cases hd : dt.length > 0 <;> by_cases hc : cs.length > 0 <;>
    simp [hd, hc, renderTerm]

theorem allWS_indent (d : Nat) : ∀ c ∈ indentChars d, isWS c = true := by
  intro c hc
  rw [indentChars, List.mem_flatten] at hc
  obtain ⟨l, hl, hcl⟩ := hc
  rw [List.mem_replicate] at hl
  rw [hl.2] at hcl
  have hcs : c = ' ' := by simpa using hcl
  subst hcs
  decide

theorem trim_allWS {w : List Char} (hw : ∀ c ∈ w, isWS c = true) : trim w = [] := by
  rw [trim, allWS_dropWhile_nil hw]
  rfl

/-- Splitting the lexer run at a concatenation point. -/
theorem lexRun_append (a b : List Char) (st : LexState) :
    lexRun (a ++ b) st =
      match lexRun a st with
      | .error e => .error e
      | .ok (e₁, st₁) =>
        match lexRun b st₁ with
        | .error e => .error e
        | .ok (e₂, st₂) => .ok (e₁ ++ e₂, st₂) := by
  induction a generalizing st with
  | nil =>
    rw [List.nil_append]
    cases hb : lexRun b st with
    | error e => simp [lexRun, hb]
    | ok q =>
      obtain ⟨e₂, st₂⟩ := q
      simp [lexRun, hb]
  | cons c cs ih =>
    rw [List.cons_append, lexRun, lexRun]
    cases hs : lexStep c st with
    | error e => rfl
    | ok q =>
      obtain ⟨e₁, st₁⟩ := q
      simp only []
      rw [ih st₁]
      cases h2 : lexRun cs st₁ with
      | error e => rfl
      | ok q₂ =>
        obtain ⟨e₂, st₂⟩ := q₂
        simp only []
        cases h3 : lexRun b st₂ with
        | error e => rfl
        | ok q₃ =>
          obtain ⟨e₃, st₃⟩ := q₃
          simp only []
          rw [List.append_assoc]

end XMLCSV

namespace XMLCSV

theorem lexStep_lt_text (u : List Char) (p : Char) :
    lexStep '<' ⟨.text u, p, false⟩ =
      .ok (pushTerm (.text u), ⟨.openingTag [], '<', false⟩) := by
  simp [lexStep, procChar]

theorem lexStep_lt_none (p : Char) :
    lexStep '<' ⟨.none, p, false⟩ = .ok ([], ⟨.openingTag [], '<', false⟩) := by
  simp [lexStep, procChar]

theorem lexStep_gt_open (u : List Char) (p : Char) :
    lexStep '>' ⟨.openingTag u, p, false⟩ =
      .ok (pushTerm (.openingTag u), ⟨.none, '>', false⟩) := by
  simp [lexStep, procChar]

theorem lexStep_gt_close (u : List Char) (p : Char) :
    lexStep '>' ⟨.closingTag u, p, false⟩ =
      .ok (pushTerm (.closingTag u), ⟨.none, '>', false⟩) := by
  simp [lexStep, procChar]

theorem lexStep_slash_open (u : List Char) :
    lexStep '/' ⟨.openingTag u, '<', false⟩ = .ok ([], ⟨.closingTag u, '/', false⟩) := by
  simp [lexStep, procChar]

theorem lexStep_start_text (c : Char) (p : Char) (h : textChar c) (hs : c ≠ '/') :
    lexStep c ⟨.none, p, false⟩ = .ok ([], ⟨.text [c], c, false⟩) := by
  obtain ⟨h1, h2, h3⟩ := h
  simp [lexStep, procChar, h1, h2, h3, hs, XMLTerm.pushChar]

theorem lexStep_text_char (c : Char) (u : List Char) (p : Char) (h : textChar c) :
    lexStep c ⟨.text u, p, false⟩ = .ok ([], ⟨.text (u ++ [c]), c, false⟩) := by
  obtain ⟨h1, h2, h3⟩ := h
  simp [lexStep, procChar, h1, h2, h3, XMLTerm.pushChar]

theorem lexStep_open_char (c : Char) (u : List Char) (p : Char) (h : nameChar c) :
    lexStep c ⟨.openingTag u, p, false⟩ =
      .ok ([], ⟨.openingTag (u ++ [c]), c, false⟩) := by
  obtain ⟨h1, h2, h3, h4⟩ := h
  simp [lexStep, procChar, h1, h2, h3, h4, XMLTerm.pushChar]

theorem lexStep_close_char (c : Char) (u : List Char) (p : Char) (h : nameChar c) :
    lexStep c ⟨.closingTag u, p, false⟩ =
      .ok ([], ⟨.closingTag (u ++ [c]), c, false⟩) := by
  obtain ⟨h1, h2, h3, h4⟩ := h
  simp [lexStep, procChar, h1, h2, h3, h4, XMLTerm.pushChar]

theorem lexRun_text_chars (cs : List Char) :
    ∀ (u : List Char) (p : Char), (∀ c ∈ cs, textChar c) →
    lexRun cs ⟨.text u, p, false⟩ =
      .ok ([], ⟨.text (u ++ cs), cs.getLastD p, false⟩) := by
  induction cs with
  | nil => intro u p _; simp [lexRun]
  | cons c cs' ih =>
    intro u p hc
    rw [lexRun, lexStep_text_char c u p (hc c (List.mem_cons_self _ _))]
    simp only []
    rw [ih (u ++ [c]) c (fun c' hc' => hc c' (List.mem_cons_of_mem _ hc'))]
    simp only [List.getLastD_cons, List.append_assoc, List.singleton_append,
      List.nil_append]

theorem lexRun_open_chars (cs : List Char) :
    ∀ (u : List Char) (p : Char), (∀ c ∈ cs, nameChar c) →
    lexRun cs ⟨.openingTag u, p, false⟩ =
      .ok ([], ⟨.openingTag (u ++ cs), cs.getLastD p, false⟩) := by
  induction cs with
  | nil => intro u p _; simp [lexRun]
  | cons c cs' ih =>
    intro u p hc
    rw [lexRun, lexStep_open_char c u p (hc c (List.mem_cons_self _ _))]
    simp only []
    rw [ih (u ++ [c]) c (fun c' hc' => hc c' (List.mem_cons_of_mem _ hc'))]
    simp only [List.getLastD_cons, List.append_assoc, List.singleton_append,
      List.nil_append]

theorem lexRun_close_chars (cs : List Char) :
    ∀ (u : List Char) (p : Char), (∀ c ∈ cs, nameChar c) →
    lexRun cs ⟨.closingTag u, p, false⟩ =
      .ok ([], ⟨.closingTag (u ++ cs), cs.getLastD p, false⟩) := by
  induction cs with
  | nil => intro u p _; simp [lexRun]
  | cons c cs' ih =>
    intro u p hc
    rw [lexRun, lexStep_close_char c u p (hc c (List.mem_cons_self _ _))]
    simp only []
    rw [ih (u ++ [c]) c (fun c' hc' => hc c' (List.mem_cons_of_mem _ hc'))]
    simp only [List.getLastD_cons, List.append_assoc, List.singleton_append,
      List.nil_append]

end XMLCSV

namespace XMLCSV

theorem lexRun_append_ok {a b : List Char} {st stA stB : LexState}
    {eA eB : List XMLTerm}
    (ha : lexRun a st = .ok (eA, stA)) (hb : lexRun b stA = .ok (eB, stB)) :
    lexRun (a ++ b) st = .ok (eA ++ eB, stB) := by
  rw [lexRun_append, ha]
  simp only []
  rw [hb]

theorem lexRun_single {c : Char} {st st' : LexState} {e : List XMLTerm}
    (h : lexStep c st = .ok (e, st')) : lexRun [c] st = .ok (e, st') := by
  rw [lexRun, h]
  simp only [lexRun]
  simp

theorem pushTerm_open_of {n : List Char} (h : trim n = n) (hne : n ≠ []) :
    pushTerm (.openingTag n) = [.openingTag n] := by
  simp only [pushTerm, h]
  rw [if_pos]
  simp [List.length_pos, hne]

theorem pushTerm_close_of {n : List Char} (h : trim n = n) (hne : n ≠ []) :
    pushTerm (.closingTag n) = [.closingTag n] := by
  simp only [pushTerm, h]
  rw [if_pos]
  simp [List.length_pos, hne]

theorem textChar_space : textChar ' ' := by
  refine ⟨?_, ?_, ?_⟩ <;> decide

theorem textChar_nl : textChar '\n' := by
  refine ⟨?_, ?_, ?_⟩ <;> decide

theorem indent_textChar (d : Nat) : ∀ c ∈ indentChars d, textChar c := by
  intro c hc
  rw [indentChars, List.mem_flatten] at hc
  obtain ⟨l, hl, hcl⟩ := hc
  rw [List.mem_replicate] at hl
  rw [hl.2] at hcl
  have hcs : c = ' ' := by simpa using hcl
  subst hcs
  exact textChar_space

theorem trim_nl : trim ['\n'] = [] := by decide

/-- Lexing a well-formed data payload from the empty accumulator collects it
verbatim into the text accumulator. -/
theorem lexRun_data {dt : List Char} (p : Char) (h : goodData dt) :
    lexRun dt ⟨.none, p, false⟩ = .ok ([], ⟨.text dt, dt.getLastD p, false⟩) := by
  obtain ⟨hne, htr, hch, hh⟩ := h
  cases dt with
  | nil => exact absurd rfl hne
  | cons c₀ dt' =>
    rw [lexRun, lexStep_start_text c₀ p (hch c₀ (List.mem_cons_self _ _))
      (hh c₀ rfl)]
    simp only []
    rw [lexRun_text_chars dt' [c₀] c₀
      (fun c' hc' => hch c' (List.mem_cons_of_mem _ hc'))]
    simp only [List.singleton_append, List.getLastD_cons]
    simp

end XMLCSV

namespace XMLCSV

/-- Lexing the rendered serialization of a well-formed tree from any text
accumulator flushes that accumulator (trimmed) and then emits exactly the
tree's clean terms, ending with a fresh newline accumulator. -/
theorem lex_render : ∀ (N : Nat) (t : Tree) (d : Nat) (u : List Char) (p : Char),
    sizeOf t ≤ N → wfTree t →
    lexRun (renderTree t d) ⟨.text u, p, false⟩ =
      .ok (pushTerm (.text u) ++ cleanTerms t, ⟨.text ['\n'], '\n', false⟩) := by
  intro N
  induction N with
  | zero =>
    intro t d u p ht _
    exact absurd ht (by cases t <;> simp)
  | succ N ih =>
    intro t d u p hsz hwf
    obtain ⟨n, dt, cs⟩ := t
    rw [wfTree] at hwf
    obtain ⟨hn, hd, hcs⟩ := hwf
    have hszcs : ∀ t' ∈ cs, sizeOf t' ≤ N := by
      intro t' ht'
      have h1 := List.sizeOf_lt_of_mem ht'
      simp only [Tree.node.sizeOf_spec] at hsz
      omega
    rw [renderTree_eq, cleanTerms]
    -- the run over the opening part: indent, '<', name, '>'
    have hA1 : lexRun (indentChars d) ⟨.text u, p, false⟩ =
        .ok ([], ⟨.text (u ++ indentChars d), (indentChars d).getLastD p, false⟩) :=
      lexRun_text_chars _ u p (indent_textChar d)
    have hlt : lexRun ['<'] ⟨.text (u ++ indentChars d),
        (indentChars d).getLastD p, false⟩ =
        .ok (pushTerm (.text u), ⟨.openingTag [], '<', false⟩) := by
      rw [lexRun_single (lexStep_lt_text _ _), pushTerm_text_ws (allWS_indent d)]
    have hnm : lexRun n ⟨.openingTag [], '<', false⟩ =
        .ok ([], ⟨.openingTag n, n.getLastD '<', false⟩) := by
      have := lexRun_open_chars n [] '<' hn.2.2
      simpa using this
    have hgt : lexRun ['>'] ⟨.openingTag n, n.getLastD '<', false⟩ =
        .ok ([.openingTag n], ⟨.none, '>', false⟩) := by
      rw [lexRun_single (lexStep_gt_open _ _), pushTerm_open_of hn.2.1 hn.1]
    have hopen : lexRun (indentChars d ++ ('<' :: (n ++ ['>'])))
        ⟨.text u, p, false⟩ =
        .ok (pushTerm (.text u) ++ [.openingTag n], ⟨.none, '>', false⟩) := by
      have h2 : lexRun (('<' :: (n ++ ['>']) : List Char))
          ⟨.text (u ++ indentChars d), (indentChars d).getLastD p, false⟩ =
          .ok (pushTerm (.text u) ++ ([] ++ [.openingTag n]), ⟨.none, '>', false⟩) :=
        lexRun_append_ok hlt (lexRun_append_ok hnm hgt)
      have h3 := lexRun_append_ok hA1 h2
      simpa using h3
    -- the closing sequence from a state whose '<' step is known
    have hclose : ∀ (stc : LexState) (ec : List XMLTerm),
        lexRun ['<'] stc = .ok (ec, ⟨.openingTag [], '<', false⟩) →
        lexRun (('<' :: '/' :: (n ++ ['>'])) ++ ['\n']) stc =
          .ok (ec ++ [.closingTag n], ⟨.text ['\n'], '\n', false⟩) := by
      intro stc ec hlt'
      have hsl : lexRun ['/'] ⟨.openingTag [], '<', false⟩ =
          .ok ([], ⟨.closingTag [], '/', false⟩) :=
        lexRun_single (lexStep_slash_open [])
      have hnm' : lexRun n ⟨.closingTag [], '/', false⟩ =
          .ok ([], ⟨.closingTag n, n.getLastD '/', false⟩) := by
        have := lexRun_close_chars n [] '/' hn.2.2
        simpa using this
      have hgt' : lexRun ['>'] ⟨.closingTag n, n.getLastD '/', false⟩ =
          .ok ([.closingTag n], ⟨.none, '>', false⟩) := by
        rw [lexRun_single (lexStep_gt_close _ _), pushTerm_close_of hn.2.1 hn.1]
      have hnl : lexRun ['\n'] ⟨.none, '>', false⟩ =
          .ok ([], ⟨.text ['\n'], '\n', false⟩) :=
        lexRun_single (lexStep_start_text '\n' '>' textChar_nl (by decide))
      have hc1 := lexRun_append_ok hlt'
        (lexRun_append_ok hsl (lexRun_append_ok hnm' hgt'))
      have hc2 := lexRun_append_ok hc1 hnl
      simpa using hc2
    by_cases hcse : cs = []
    · -- leaf: no children
      subst hcse
      simp only [List.length_nil, gt_iff_lt, Nat.lt_irrefl, if_false,
        renderForest_nil, List.append_nil, cleanForest]
      by_cases hdte : dt = []
      · subst hdte
        simp only [List.length_nil, gt_iff_lt, Nat.lt_irrefl, if_false,
          List.append_nil]
        have hcl := hclose ⟨.none, '>', false⟩ []
          (lexRun_single (lexStep_lt_none '>'))
        have := lexRun_append_ok hopen hcl
        simpa [List.append_assoc] using this
      · have hgd : goodData dt := hd.resolve_left hdte
        have hdl : dt.length > 0 := List.length_pos.2 hdte
        simp only [if_pos hdl]
        have hdata : lexRun dt ⟨.none, '>', false⟩ =
            .ok ([], ⟨.text dt, dt.getLastD '>', false⟩) := lexRun_data '>' hgd
        have hcl := hclose ⟨.text dt, dt.getLastD '>', false⟩ [.text dt]
          (by rw [lexRun_single (lexStep_lt_text _ _),
            pushTerm_text_of_trimmed hgd.2.1 hgd.1])
        have h5 := lexRun_append_ok (lexRun_append_ok hopen hdata) hcl
        simpa [List.append_assoc, if_neg hdte] using h5
    · -- node with children
      have hcl0 : cs.length > 0 := List.length_pos.2 hcse
      simp only [if_pos hcl0]
      -- middle: optional data then the newline, reaching text (dt ++ newline)
      have hmid : lexRun ((if dt.length > 0 then dt else []) ++ ['\n'])
          ⟨.none, '>', false⟩ =
          .ok ([], ⟨.text (dt ++ ['\n']), '\n', false⟩) := by
        by_cases hdte : dt = []
        · subst hdte
          simp only [List.length_nil, gt_iff_lt, Nat.lt_irrefl, if_false,
            List.nil_append]
          exact lexRun_single (lexStep_start_text '\n' '>' textChar_nl (by decide))
        · have hgd : goodData dt := hd.resolve_left hdte
          simp only [if_pos (List.length_pos.2 hdte)]
          exact lexRun_append_ok (lexRun_data '>' hgd)
            (lexRun_single (lexStep_text_char '\n' dt _ textChar_nl))
      -- the forest
      have hforest : ∀ (ts : List Tree), (∀ t' ∈ ts, sizeOf t' ≤ N) →
          wfTreeList ts → ts ≠ [] → ∀ (u' : List Char) (p' : Char),
          lexRun (renderForest ts (d + 1)) ⟨.text u', p', false⟩ =
            .ok (pushTerm (.text u') ++ cleanForest ts,
              ⟨.text ['\n'], '\n', false⟩) := by
        intro ts
        induction ts with
        | nil => intro _ _ hne; exact absurd rfl hne
        | cons t' ts'' ihts =>
          intro hszl hwfl _ u' p'
          rw [renderForest_cons, wfTreeList] at *
          have h1 := ih t' (d + 1) u' p' (hszl t' (List.mem_cons_self _ _)) hwfl.1
          by_cases hte : ts'' = []
          · subst hte
            have h2 := lexRun_append_ok h1
              (by rw [renderForest_nil, lexRun] : lexRun (renderForest [] (d + 1))
                ⟨.text ['\n'], '\n', false⟩ = .ok ([], ⟨.text ['\n'], '\n', false⟩))
            rw [h2]
            simp [cleanForest]
          · have h2 := ihts (fun t'' ht'' => hszl t'' (List.mem_cons_of_mem _ ht''))
              hwfl.2 hte ['\n'] '\n'
            have h3 := lexRun_append_ok h1 h2
            rw [h3, pushTerm_text_of_ws trim_nl]
            simp [cleanForest, List.append_assoc]
      have hfor := hforest cs hszcs hcs hcse (dt ++ ['\n']) '\n'
      rw [pushTerm_text_ws (by intro c hc; simp at hc; subst hc; decide :
        ∀ c ∈ ['\n'], isWS c = true)] at hfor
      -- trailing indent before the closing tag
      have hind : lexRun (indentChars d) ⟨.text ['\n'], '\n', false⟩ =
          .ok ([], ⟨.text (['\n'] ++ indentChars d),
            (indentChars d).getLastD '\n', false⟩) :=
        lexRun_text_chars _ _ _ (indent_textChar d)
      have hwsflush : trim (['\n'] ++ indentChars d) = [] := by
        apply trim_allWS
        intro c hc
        rcases List.mem_append.1 hc with h | h
        · simp at h; subst h; decide
        · exact allWS_indent d c h
      have hcl := hclose ⟨.text (['\n'] ++ indentChars d),
          (indentChars d).getLastD '\n', false⟩ []
        (by rw [lexRun_single (lexStep_lt_text _ _), pushTerm_text_of_ws hwsflush])
      have hpt : pushTerm (XMLTerm.text dt) =
          if dt = [] then [] else [XMLTerm.text dt] := by
        rcases hd with rfl | hgd
        · simp [pushTerm, trim]
        · rw [if_neg hgd.1, pushTerm_text_of_trimmed hgd.2.1 hgd.1]
      rw [hpt] at hfor
      have hall := lexRun_append_ok (lexRun_append_ok (lexRun_append_ok
        (lexRun_append_ok hopen hmid) hfor) hind) hcl
      by_cases hdte : dt = []
      · subst hdte
        simpa [List.append_assoc] using hall
      · simpa [List.append_assoc, if_neg hdte] using hall

end XMLCSV

namespace XMLCSV

theorem flattenForest_append (F G : List Item) :
    flattenForest (F ++ G) = flattenForest F ++ flattenForest G := by
  induction F with
  | nil => rw [flattenForest]; simp
  | cons it rest ih =>
    rw [List.cons_append, flattenForest, flattenForest, ih, List.append_assoc]

theorem forestData_append (F G : List Item) :
    forestData (F ++ G) = forestData F ++ forestData G := by
  induction F with
  | nil => rw [forestData]; simp
  | cons it rest ih =>
    cases it with
    | txt s => rw [List.cons_append, forestData, forestData, ih, List.append_assoc]
    | el n c => rw [List.cons_append, forestData, forestData, ih]

theorem elemTrees_append (F G : List Item) :
    elemTrees (F ++ G) = elemTrees F ++ elemTrees G := by
  induction F with
  | nil => rw [elemTrees]; simp
  | cons it rest ih =>
    cases it with
    | txt s => rw [List.cons_append, elemTrees, elemTrees, ih]
    | el n c => rw [List.cons_append, elemTrees, elemTrees, ih]; rfl

theorem forestData_canonForest (ts : List Tree) : forestData (canonForest ts) = [] := by
  induction ts with
  | nil => rw [canonForest, forestData]
  | cons t rest ih =>
    rw [canonForest]
    obtain ⟨n, d, cs⟩ := t
    rw [canonItem, forestData, ih]

/-- The clean term span of a tree is the flattened span of its canonical
item. -/
theorem cleanTerms_eq_flatten : ∀ (N : Nat) (t : Tree), sizeOf t ≤ N →
    cleanTerms t = flattenItem (canonItem t) := by
  intro N
  induction N with
  | zero =>
    intro t ht
    exact absurd ht (by cases t <;> simp)
  | succ N ih =>
    intro t ht
    obtain ⟨n, d, cs⟩ := t
    have hcf : cleanForest cs = flattenForest (canonForest cs) := by
      have hsz : ∀ t' ∈ cs, sizeOf t' ≤ N := by
        intro t' ht'
        have := List.sizeOf_lt_of_mem ht'
        simp only [Tree.node.sizeOf_spec] at ht
        omega
      clear ht
      induction cs with
      | nil => rw [cleanForest, canonForest, flattenForest]
      | cons t' rest ihcs =>
        rw [cleanForest, canonForest, flattenForest,
          ih t' (hsz t' (List.mem_cons_self _ _)),
          ihcs (fun t'' ht'' => hsz t'' (List.mem_cons_of_mem _ ht''))]
    rw [cleanTerms, canonItem, flattenItem, flattenForest_append, hcf]
    by_cases hd : d = []
    · subst hd
      simp [flattenForest]
    · simp only [if_neg hd]
      rw [flattenForest, flattenItem, flattenForest]
      simp

/-- The parser reconstructs a tree's canonical item back to the same tree. -/
theorem itemTree_canon : ∀ (N : Nat) (t : Tree), sizeOf t ≤ N →
    itemTree (canonItem t) = t := by
  intro N
  induction N with
  | zero =>
    intro t ht
    exact absurd ht (by cases t <;> simp)
  | succ N ih =>
    intro t ht
    obtain ⟨n, d, cs⟩ := t
    have hsz : ∀ t' ∈ cs, sizeOf t' ≤ N := by
      intro t' ht'
      have := List.sizeOf_lt_of_mem ht'
      simp only [Tree.node.sizeOf_spec] at ht
      omega
    have hct : elemTrees (canonForest cs) = cs := by
      clear ht
      induction cs with
      | nil => rw [canonForest, elemTrees]
      | cons t' rest ihcs =>
        rw [canonForest]
        obtain ⟨n', d', cs'⟩ := t'
        rw [canonItem, elemTrees, ← canonItem,
          ih _ (by simpa [canonItem] using hsz _ (List.mem_cons_self _ _)),
          ihcs (fun t'' ht'' => hsz t'' (List.mem_cons_of_mem _ ht''))]
    rw [canonItem, itemTree, forestData_append, elemTrees_append,
      forestData_canonForest, hct]
    by_cases hd : d = []
    · subst hd
      simp [forestData, elemTrees]
    · simp only [if_neg hd]
      rw [forestData, forestData, elemTrees, elemTrees]
      simp

end XMLCSV

namespace XMLCSV

/-- The accumulated data of a well-formed forest is empty or a trimmed,
non-empty run of text characters. -/
theorem forestData_good : ∀ F : List Item, wfForest F → forestData F = [] ∨
    (forestData F ≠ [] ∧ trim (forestData F) = forestData F ∧
      ∀ c ∈ forestData F, textChar c) := by
  intro F
  induction F with
  | nil => intro _; left; rw [forestData]
  | cons it rest ih =>
    intro hwf
    rw [wfForest] at hwf
    obtain ⟨hit, hrest⟩ := hwf
    cases it with
    | el n c => rw [forestData]; exact ih hrest
    | txt s =>
      rw [wfItem] at hit
      obtain ⟨hne, htr, hch⟩ := hit
      rw [forestData]
      right
      have htrest : trim (forestData rest) = forestData rest := by
        rcases ih hrest with h | h
        · rw [h]; rfl
        · exact h.2.1
      refine ⟨by simp [hne], trim_concat_trimmed htr hne htrest, ?_⟩
      intro c hc
      rcases List.mem_append.1 hc with h | h
      · exact hch c h
      · rcases ih hrest with h0 | h0
        · rw [h0] at h; cases h
        · exact h0.2.2 c h

/-- The element trees of a well-formed forest are well-formed. -/
theorem wfForest_trees : ∀ (N : Nat) (F : List Item), sizeOf F ≤ N →
    wfForest F → wfTreeList (elemTrees F) := by
  intro N
  induction N with
  | zero =>
    intro F hF _
    exact absurd hF (by cases F <;> simp)
  | succ N ih =>
    intro F hF hwf
    cases F with
    | nil => rw [elemTrees, wfTreeList]; trivial
    | cons it rest =>
      rw [wfForest] at hwf
      obtain ⟨hit, hrest⟩ := hwf
      cases it with
      | txt s =>
        rw [elemTrees]
        exact ih rest (by simp only [List.cons.sizeOf_spec] at hF; omega) hrest
      | el n c =>
        have hszc : sizeOf c ≤ N := by
          simp only [List.cons.sizeOf_spec, Item.el.sizeOf_spec] at hF
          omega
        have hszr : sizeOf rest ≤ N := by
          have : sizeOf (Item.el n c) > 0 := by simp
          simp only [List.cons.sizeOf_spec] at hF
          omega
        rw [elemTrees, wfTreeList, itemTree, wfTree]
        rw [wfItem] at hit
        obtain ⟨hgn, hwfc, hhead⟩ := hit
        refine ⟨⟨hgn, ?_, ih c hszc hwfc⟩, ih rest hszr hrest⟩
        rcases forestData_good c hwfc with h | h
        · left; exact h
        · right
          exact ⟨h.1, h.2.1, h.2.2, hhead⟩

/-- A well-formed element item reconstructs to a well-formed tree. -/
theorem wfItem_tree (n : List Char) (content : List Item)
    (h : wfItem (.el n content)) : wfTree (itemTree (.el n content)) := by
  rw [itemTree, wfTree]
  rw [wfItem] at h
  obtain ⟨hgn, hwfc, hhead⟩ := h
  refine ⟨hgn, ?_, wfForest_trees (sizeOf content) content (le_refl _) hwfc⟩
  rcases forestData_good content hwfc with h | h
  · left; exact h
  · right
    exact ⟨h.1, h.2.1, h.2.2, hhead⟩

/-- Lexing the fixed declaration line consumes it entirely (the `?` enters
skip mode) and leaves a fresh newline text accumulator. -/
theorem lex_declaration :
    lexRun ("<?xml version=\"1.0\"?>\n".data) ⟨.none, '\x00', false⟩ =
      .ok ([], ⟨.text ['\n'], '\n', false⟩) := by
  decide

end XMLCSV

/-- Counterexample for C3: the properly matched input `<a></a><b></b>` (two
top-level elements, tags only) loses the `b` element on the round trip: the
serializer emits only the first top-level child, so re-lexing the rendered
output yields `OpeningTag a, ClosingTag a` — the tag `b` present in the
input's term sequence is gone. -/
theorem claim_C3_counterexample :
    XMLCSV.lexer "<a></a><b></b>".data =
      .ok [.openingTag "a".data, .closingTag "a".data,
           .openingTag "b".data, .closingTag "b".data] ∧
    XMLCSV.parser [.openingTag "a".data, .closingTag "a".data,
        .openingTag "b".data, .closingTag "b".data] =
      .ok [⟨"root".data, [], Option.none, [1, 2]⟩,
           ⟨"a".data, [], some 0, []⟩, ⟨"b".data, [], some 0, []⟩] ∧
    ((XMLCSV.xml_reverse_parse_root (XMLCSV.toTree
        [⟨"root".data, [], Option.none, [1, 2]⟩, ⟨"a".data, [], some 0, []⟩,
         ⟨"b".data, [], some 0, []⟩] 3 0)).map XMLCSV.xml_formatter) =
      some ("<?xml version=\"1.0\"?>\n<a></a>\n".data) ∧
    XMLCSV.lexer ("<?xml version=\"1.0\"?>\n<a></a>\n".data) =
      .ok [.openingTag "a".data, .closingTag "a".data] ∧
    XMLCSV.XMLTerm.openingTag "b".data ∉
      [XMLCSV.XMLTerm.openingTag "a".data, XMLCSV.XMLTerm.closingTag "a".data] ∧
    XMLCSV.XMLTerm.openingTag "b".data ∈
      [XMLCSV.XMLTerm.openingTag "a".data, XMLCSV.XMLTerm.closingTag "a".data,
       XMLCSV.XMLTerm.openingTag "b".data, XMLCSV.XMLTerm.closingTag "b".data] := by
  refine ⟨by decide, by decide, by decide, by decide, by decide, by decide⟩

/-- C3 (amended): for every markup input whose lex is the balanced term
span of exactly one top-level element (names and text runs as the lexer
emits them) in which no element's accumulated text begins with `/`, the
pipeline Lexer → Tree Parser → Tree Serializer → renderer yields markup
that, after ignoring indentation/whitespace, has the same tag names,
nesting and text content as the input: re-lexing and re-parsing the output
reconstructs exactly the same tree. -/
theorem claim_C3_roundtrip (s : List Char) (n : List Char) (content : List XMLCSV.Item)
    (hlex : XMLCSV.lexer s = .ok (XMLCSV.flattenItem (.el n content)))
    (hwf : XMLCSV.wfItem (.el n content)) :
    ∃ (h h' : XMLCSV.Heap) (t : XMLCSV.Tree),
      XMLCSV.parser (XMLCSV.flattenItem (.el n content)) = .ok h ∧
      XMLCSV.toTree h h.length 0 = .node "root".data [] [t] ∧
      XMLCSV.xml_reverse_parse_root (XMLCSV.toTree h h.length 0) =
        some (XMLCSV.recursive_xml_reverse_parse t 0) ∧
      XMLCSV.lexer (XMLCSV.xml_formatter (XMLCSV.recursive_xml_reverse_parse t 0)) =
        .ok (XMLCSV.cleanTerms t) ∧
      XMLCSV.parser (XMLCSV.cleanTerms t) = .ok h' ∧
      XMLCSV.toTree h' h'.length 0 = .node "root".data [] [t] := by
  obtain ⟨hok, hlen, htree⟩ := XMLCSV.parse_flatten_item n content
  set t : XMLCSV.Tree := XMLCSV.itemTree (.el n content) with hti
  set X : List XMLCSV.Item :=
    (if XMLCSV.forestData content = [] then []
      else [XMLCSV.Item.txt (XMLCSV.forestData content)])
      ++ XMLCSV.canonForest (XMLCSV.elemTrees content) with hX
  have hXcanon : XMLCSV.Item.el n X = XMLCSV.canonItem t := by
    rw [hti, XMLCSV.itemTree, XMLCSV.canonItem, hX]
  obtain ⟨hok2, hlen2, htree2⟩ := XMLCSV.parse_flatten_item n X
  have hclean : XMLCSV.cleanTerms t = XMLCSV.flattenItem (.el n X) := by
    rw [XMLCSV.cleanTerms_eq_flatten (sizeOf t) t (le_refl _), hXcanon]
  refine ⟨XMLCSV.buildForest XMLCSV.initHeap 0 [XMLCSV.Item.el n content],
    XMLCSV.buildForest XMLCSV.initHeap 0 [XMLCSV.Item.el n X], t,
    hok, htree, ?_, ?_, ?_, ?_⟩
  · rw [htree]
    rfl
  · have hwft : XMLCSV.wfTree t := XMLCSV.wfItem_tree n content hwf
    have hrender : XMLCSV.xml_formatter (XMLCSV.recursive_xml_reverse_parse t 0) =
        ("<?xml version=\"1.0\"?>\n".data) ++ XMLCSV.renderTree t 0 := by
      rw [XMLCSV.xml_formatter, XMLCSV.renderTree]
    rw [hrender]
    unfold XMLCSV.lexer
    rw [XMLCSV.lexRun_append_ok XMLCSV.lex_declaration
      (XMLCSV.lex_render (sizeOf t) t 0 ['\n'] '\n' (le_refl _) hwft)]
    rw [XMLCSV.pushTerm_text_of_ws XMLCSV.trim_nl]
    simp
  · rw [hclean]
    exact hok2
  · rw [htree2, hXcanon, XMLCSV.itemTree_canon (sizeOf t) t (le_refl _)]

/-- Witness for C3: the input `<a>hi</a>` lexes to the span of the single
element `a` with text `hi`, and the round trip reconstructs the tree
`root → a("hi")` on both sides. -/
theorem claim_C3_witness :
    ∃ (h h' : XMLCSV.Heap) (t : XMLCSV.Tree),
      XMLCSV.parser (XMLCSV.flattenItem (.el "a".data [.txt "hi".data])) = .ok h ∧
      XMLCSV.toTree h h.length 0 = .node "root".data [] [t] ∧
      XMLCSV.xml_reverse_parse_root (XMLCSV.toTree h h.length 0) =
        some (XMLCSV.recursive_xml_reverse_parse t 0) ∧
      XMLCSV.lexer (XMLCSV.xml_formatter (XMLCSV.recursive_xml_reverse_parse t 0)) =
        .ok (XMLCSV.cleanTerms t) ∧
      XMLCSV.parser (XMLCSV.cleanTerms t) = .ok h' ∧
      XMLCSV.toTree h' h'.length 0 = .node "root".data [] [t] :=
  claim_C3_roundtrip "<a>hi</a>".data "a".data [.txt "hi".data]
    (by decide)
    (by
      rw [XMLCSV.wfItem]
      refine ⟨⟨by decide, by decide, ?_⟩, ?_, by decide⟩
      · intro c hc
        refine ⟨?_, ?_, ?_, ?_⟩ <;> (simp at hc; rcases hc with rfl; decide)
      · rw [XMLCSV.wfForest, XMLCSV.wfItem, XMLCSV.wfForest]
        refine ⟨⟨by decide, by decide, ?_⟩, trivial⟩
        intro c hc
        refine ⟨?_, ?_, ?_⟩ <;> (simp at hc; rcases hc with rfl | rfl <;> decide))
